import Mathlib

/-!
Verification of the mozi crypto-signal server: a shallow embedding of the
OHLC candle cache, the strategy engine decision rule and SL/TP computation,
and the feed-layer reconnection and tick-validation logic, together with
proofs of the specified properties.

JavaScript numbers are modelled as exact rationals, timestamps as naturals,
and operations that can raise a TypeError are modelled in the Except monad.
-/

namespace Mozi

/-- The last-tick record kept per symbol; fields start as null. -/
structure LastTick where
  price : Option ℚ
  time : Option ℕ
  source : Option String
deriving DecidableEq

/-- One OHLC candle. The field `open` of the source is a Lean keyword,
hence `open_`. -/
structure Candle where
  time : ℕ
  open_ : ℚ
  high : ℚ
  low : ℚ
  close : ℚ
  volume : ℚ
deriving DecidableEq

/-- The 12 canonical symbols initialised in the OHLCCache constructor. -/
def symbols : List String :=
  ["btc", "eth", "sol", "xrp", "ada", "doge", "bnb", "ltc", "matic", "avax", "dot", "link"]

/-- The four timeframes initialised in the OHLCCache constructor. -/
def timeframes : List String := ["1m", "5m", "15m", "1h"]

/-- State of an OHLCCache instance.  JavaScript objects are modelled as
functions into Option: `none` models an absent key (undefined). -/
structure OHLCCache where
  maxBars : ℕ
  cache : String → Option (String → Option (List Candle))
  lastTick : String → Option LastTick
  errors : String → ℕ
  currentCandles : String → Option (String → Option Candle)

/-- Pointwise update of a string-keyed map. -/
def upd {α : Type} (f : String → α) (k : String) (v : α) : String → α :=
  fun x => if x = k then v else f x

/-- The OHLCCache constructor: empty bar lists and null current candles for
every known symbol and timeframe, null last-tick records, zero errors. -/
def mkOHLCCache (maxBars : ℕ) : OHLCCache where
  maxBars := maxBars
  cache := fun s =>
    if s ∈ symbols then some (fun tf => if tf ∈ timeframes then some [] else none) else none
  lastTick := fun s => if s ∈ symbols then some ⟨none, none, none⟩ else none
  errors := fun _ => 0
  currentCandles := fun s => if s ∈ symbols then some (fun _ => none) else none

/-- getTimeframeMs: timeframe duration lookup with a 60000 ms default. -/
def getTimeframeMs (tf : String) : ℕ :=
  if tf = "1m" then 60 * 1000
  else if tf = "5m" then 5 * 60 * 1000
  else if tf = "15m" then 15 * 60 * 1000
  else if tf = "1h" then 60 * 60 * 1000
  else 60 * 1000

/-- The bucket start computed in updateOHLC: Math.floor(ts / tfMs) * tfMs,
which on naturals is truncating division followed by multiplication. -/
def bucketStart (tf : String) (timestamp : ℕ) : ℕ :=
  timestamp / getTimeframeMs tf * getTimeframeMs tf

/-- Array push followed by a conditional shift: keeps only the last maxBars
elements after appending, dropping one element from the front when over. -/
def pushCapped (maxBars : ℕ) (bars : List Candle) (candle : Candle) : List Candle :=
  let pushed := bars ++ [candle]
  if maxBars < pushed.length then pushed.tail else pushed

/-- addCompletedCandle: push the closed candle into the per-key array.
Accessing a missing symbol or timeframe key raises a TypeError. -/
def addCompletedCandle (c : OHLCCache) (s tf : String) (candle : Candle) :
    Except String OHLCCache :=
  match c.cache s with
  | none => Except.error "TypeError"
  | some m =>
    match m tf with
    | none => Except.error "TypeError"
    | some bars =>
      Except.ok { c with
        cache := upd c.cache s (some (upd m tf (some (pushCapped c.maxBars bars candle)))) }

/-- The fresh candle opened for a new bucket. -/
def newCandle (time : ℕ) (price : ℚ) : Candle :=
  { time := time, open_ := price, high := price, low := price, close := price, volume := 0 }

/-- updateOHLC: bucket the tick; a tick in the current bucket updates the
current candle in place, otherwise the current candle (if any) is closed and
a fresh candle is opened.  Reading `currentCandles[symbol][timeframe]` when
the symbol key is absent raises a TypeError. -/
def updateOHLC (c : OHLCCache) (s tf : String) (price : ℚ) (timestamp : ℕ) :
    Except String OHLCCache :=
  let candleStart := bucketStart tf timestamp
  match c.currentCandles s with
  | none => Except.error "TypeError"
  | some curMap =>
    match curMap tf with
    | none =>
      Except.ok { c with
        currentCandles := upd c.currentCandles s (some (upd curMap tf (some (newCandle candleStart price)))) }
    | some cur =>
      if cur.time = candleStart then
        Except.ok { c with
          currentCandles := upd c.currentCandles s (some (upd curMap tf
            (some { cur with high := max cur.high price, low := min cur.low price, close := price }))) }
      else
        match addCompletedCandle c s tf cur with
        | Except.error e => Except.error e
        | Except.ok c2 =>
          Except.ok { c2 with
            currentCandles := upd c2.currentCandles s (some (upd curMap tf (some (newCandle candleStart price)))) }

/-- The forEach over timeframes inside updateTick, with exception
propagation. -/
def updateTFs (c : OHLCCache) (s : String) (tfs : List String) (price : ℚ) (timestamp : ℕ) :
    Except String OHLCCache :=
  match tfs with
  | [] => Except.ok c
  | tf :: rest =>
    match updateOHLC c s tf price timestamp with
    | Except.error e => Except.error e
    | Except.ok c2 => updateTFs c2 s rest price timestamp

/-- updateTick: record the last tick and update every timeframe.  The
timestamp argument defaults to Date.now() when null or zero (falsy);
`nowMs` stands for Date.now(). -/
def updateTick (c : OHLCCache) (s : String) (price : ℚ) (source : String)
    (timestamp : Option ℕ) (nowMs : ℕ) : Except String OHLCCache :=
  let now := match timestamp with
    | none => nowMs
    | some t => if t = 0 then nowMs else t
  let c1 := { c with lastTick := upd c.lastTick s (some ⟨some price, some now, some source⟩) }
  updateTFs c1 s timeframes price now

/-- JavaScript `arr.slice(-count)` for a natural count: the last `count`
elements, except that `slice(-0)` is `slice(0)` and returns the whole
array. -/
def jsSliceLast {α : Type} (l : List α) (count : ℕ) : List α :=
  if count = 0 then l else l.drop (l.length - count)

/-- getBars: guarded lookup returning [] for a missing symbol or timeframe
key, otherwise `bars.slice(-count)`. -/
def getBars (c : OHLCCache) (s tf : String) (count : ℕ) : List Candle :=
  match c.cache s with
  | none => []
  | some m =>
    match m tf with
    | none => []
    | some bars => jsSliceLast bars count

/-- getLatestPrice: raw last-tick lookup (undefined for unknown symbols). -/
def getLatestPrice (c : OHLCCache) (s : String) : Option LastTick :=
  c.lastTick s

/-- recordError: increment the per-symbol error counter, defaulting a
missing entry to 0. -/
def recordError (c : OHLCCache) (s : String) : OHLCCache :=
  { c with errors := upd c.errors s (c.errors s + 1) }

/-- loadHistoricalBars: replace the stored array for a known key by
`bars.slice(-maxBars)` and refresh the last tick from the final bar; a
missing symbol or timeframe key makes it return with no change.  A final
bar whose time is 0 (falsy) stamps the tick with Date.now() = nowMs. -/
def loadHistoricalBars (c : OHLCCache) (s tf : String) (bars : List Candle) (nowMs : ℕ) :
    OHLCCache :=
  match c.cache s with
  | none => c
  | some m =>
    match m tf with
    | none => c
    | some _ =>
      let c1 := { c with cache := upd c.cache s (some (upd m tf (some (jsSliceLast bars c.maxBars)))) }
      match bars.getLast? with
      | none => c1
      | some lastBar =>
        let tick : LastTick :=
          ⟨some lastBar.close, some (if lastBar.time = 0 then nowMs else lastBar.time), some "historical"⟩
        { c1 with lastTick := upd c1.lastTick s (some tick) }

/-- The loop body of getStaleSymbols over a list of symbols; reading
`tick.time` from a missing record would raise a TypeError.  A stored time
of 0 is falsy and counts as stale, like a null time. -/
def staleAux (c : OHLCCache) (nowMs maxAgeMs : ℕ) : List String → Except String (List String)
  | [] => Except.ok []
  | s :: rest =>
    match c.lastTick s with
    | none => Except.error "TypeError"
    | some tick =>
      let isStale := match tick.time with
        | none => true
        | some t => if t = 0 then true else decide (maxAgeMs < nowMs - t)
      match staleAux c nowMs maxAgeMs rest with
      | Except.error e => Except.error e
      | Except.ok tail => Except.ok (if isStale then s :: tail else tail)

/-- getStaleSymbols: symbols whose last tick is missing or older than
maxAgeMs, in symbol order. -/
def getStaleSymbols (c : OHLCCache) (nowMs maxAgeMs : ℕ) : Except String (List String) :=
  staleAux c nowMs maxAgeMs symbols

/-- Per-symbol block of the getMetrics report. -/
structure SymMetrics where
  lastPrice : Option ℚ
  lastTime : Option ℕ
  source : Option String
  errorCount : ℕ
  bars : List (String × ℕ)
deriving DecidableEq

/-- The whole getMetrics report. -/
structure Metrics where
  perSymbol : List (String × SymMetrics)
  totalBars : ℕ
  lastUpdate : ℕ
deriving DecidableEq

/-- Bar counts of one symbol across a list of timeframes;
`cache[symbol][tf].length` raises a TypeError on a missing key. -/
def barCounts (m : String → Option (List Candle)) : List String → Except String (List (String × ℕ))
  | [] => Except.ok []
  | tf :: rest =>
    match m tf with
    | none => Except.error "TypeError"
    | some bars =>
      match barCounts m rest with
      | Except.error e => Except.error e
      | Except.ok tail => Except.ok ((tf, bars.length) :: tail)

/-- The loop body of getMetrics over a list of symbols. -/
def metricsAux (c : OHLCCache) : List String → Except String (List (String × SymMetrics))
  | [] => Except.ok []
  | s :: rest =>
    match c.lastTick s with
    | none => Except.error "TypeError"
    | some tick =>
      match c.cache s with
      | none => Except.error "TypeError"
      | some m =>
        match barCounts m timeframes with
        | Except.error e => Except.error e
        | Except.ok counts =>
          match metricsAux c rest with
          | Except.error e => Except.error e
          | Except.ok tail =>
            Except.ok ((s, ⟨tick.price, tick.time, tick.source, c.errors s, counts⟩) :: tail)

/-- getMetrics: per-symbol last tick, error count and bar counts, plus the
grand total of stored bars. -/
def getMetrics (c : OHLCCache) (nowMs : ℕ) : Except String Metrics :=
  match metricsAux c symbols with
  | Except.error e => Except.error e
  | Except.ok per =>
    Except.ok ⟨per, (per.map (fun p => (p.2.bars.map Prod.snd).sum)).sum, nowMs⟩

/-- True when an Except value carries a result rather than an error. -/
def exOk {α : Type} : Except String α → Bool
  | Except.ok _ => true
  | Except.error _ => false

/-- Observer: the current (incomplete) candle of a key, none when either
level of the lookup is absent. -/
def currentCandle (c : OHLCCache) (s tf : String) : Option Candle :=
  match c.currentCandles s with
  | none => none
  | some m => m tf

/-- Observer: the stored completed-candle list of a key. -/
def storedBars (c : OHLCCache) (s tf : String) : Option (List Candle) :=
  match c.cache s with
  | none => none
  | some m => m tf

/-- updateTick wrapped as a total transition: an uncaught exception leaves
the modelled state unchanged. -/
def stepTick (c : OHLCCache) (s : String) (price : ℚ) (nowMs : ℕ) : OHLCCache :=
  match updateTick c s price "ws" none nowMs with
  | Except.ok c2 => c2
  | Except.error _ => c

/-- Run a list of (symbol, price, time) ticks through updateTick. -/
def runTicks (c : OHLCCache) : List (String × ℚ × ℕ) → OHLCCache
  | [] => c
  | (s, p, t) :: rest => runTicks (stepTick c s p t) rest

/-! ### Strategy engine: determineSignal and calculateSLTP -/

/-- Trading signal values. -/
inductive Signal where
  | BUY
  | SELL
  | HOLD
deriving DecidableEq

/-- Aggregated vote totals. -/
structure Votes where
  BUY : ℚ
  SELL : ℚ
  HOLD : ℚ
deriving DecidableEq

/-- determineSignal: BUY or SELL only on a strict 40-percent consensus that
also strictly beats the opposing share; confidence is the rounded winning
share capped at 100, and 0 for HOLD. -/
def determineSignal (votes : Votes) : Signal × ℤ :=
  let total := votes.BUY + votes.SELL + votes.HOLD
  if total = 0 then (Signal.HOLD, 0)
  else
    let buyPct := votes.BUY / total * 100
    let sellPct := votes.SELL / total * 100
    if 40 < buyPct ∧ sellPct < buyPct then (Signal.BUY, min (round buyPct) 100)
    else if 40 < sellPct ∧ buyPct < sellPct then (Signal.SELL, min (round sellPct) 100)
    else (Signal.HOLD, 0)

/-- The three plan keys of the strategy engine. -/
inductive Plan where
  | short
  | mid
  | long
deriving DecidableEq

/-- ATR multipliers (sl, tp) per plan. -/
def atrMultipliers : Plan → ℚ × ℚ
  | Plan.short => (1, 3/2)
  | Plan.mid => (3/2, 2)
  | Plan.long => (2, 3)

/-- Percentage fallback (sl, tp) per plan. -/
def percentageFallback : Plan → ℚ × ℚ
  | Plan.short => (2/100, 5/100)
  | Plan.mid => (3/100, 8/100)
  | Plan.long => (5/100, 15/100)

/-- The branch condition `atr && atr >= minATR` of calculateSLTP, with
minATR = 0.1 percent of price.  A missing or zero atr is falsy. -/
def useATRCheck (price atr : ℚ) : Bool :=
  decide (atr ≠ 0) && decide (price * (1/1000) ≤ atr)

/-- calculateSLTP: ATR-based stop and target when the ATR is meaningful,
plan-specific percentage fallback otherwise, then a minimum-distance
correction replacing any leg closer than 0.5 percent of price by fixed
2-percent / 5-percent legs.  HOLD yields null. -/
def calculateSLTP (price atr : ℚ) (signal : Signal) (plan : Plan) : Option (ℚ × ℚ) :=
  let multipliers := atrMultipliers plan
  let useATR := useATRCheck price atr
  match signal with
  | Signal.HOLD => none
  | Signal.BUY =>
    let stopLoss := if useATR then price - atr * multipliers.1
      else price * (1 - (percentageFallback plan).1)
    let takeProfit := if useATR then price + atr * multipliers.2
      else price * (1 + (percentageFallback plan).2)
    let minDistance := price * (5/1000)
    let stopLoss2 := if |stopLoss - price| < minDistance then price * (98/100) else stopLoss
    let takeProfit2 := if |takeProfit - price| < minDistance then price * (105/100) else takeProfit
    some (stopLoss2, takeProfit2)
  | Signal.SELL =>
    let stopLoss := if useATR then price + atr * multipliers.1
      else price * (1 + (percentageFallback plan).1)
    let takeProfit := if useATR then price - atr * multipliers.2
      else price * (1 - (percentageFallback plan).2)
    let minDistance := price * (5/1000)
    let stopLoss2 := if |stopLoss - price| < minDistance then price * (102/100) else stopLoss
    let takeProfit2 := if |takeProfit - price| < minDistance then price * (95/100) else takeProfit
    some (stopLoss2, takeProfit2)

/-! ### Feed layer: reconnection backoff and ticker validation -/

/-- BinanceWS.scheduleReconnect acting on the attempt counter: give up at
the cap of 10, otherwise increment and compute
min(1000 * 2 ^ (attempt - 1), 30000) for the new attempt number.  Returns
the scheduled delay (none when giving up) and the new counter. -/
def binanceScheduleReconnect (reconnectAttempts : ℕ) : Option ℕ × ℕ :=
  if 10 ≤ reconnectAttempts then (none, reconnectAttempts)
  else
    let attempt := reconnectAttempts + 1
    (some (min (1000 * 2 ^ (attempt - 1)) 30000), attempt)

/-- DataFeedManager.scheduleReconnect acting on the attempt counter: give
up at the cap of 10, otherwise increment and compute
5000 * 2 ^ min(attempt - 1, 5) for the new attempt number. -/
def kucoinScheduleReconnect (wsReconnectAttempts : ℕ) : Option ℕ × ℕ :=
  if 10 ≤ wsReconnectAttempts then (none, wsReconnectAttempts)
  else
    let attempt := wsReconnectAttempts + 1
    (some (5000 * 2 ^ (min (attempt - 1) 5)), attempt)

/-- Modelled from the spec: the backoff formula the spec asserts for
attempt n, min(base * 2^(n-1), 30000) milliseconds. -/
def specBackoffDelay (base n : ℕ) : ℕ :=
  min (base * 2 ^ (n - 1)) 30000

/-- The result of parseFloat on a present, truthy field: either a finite
rational, an infinity, or NaN. -/
inductive JSNum where
  | nan
  | inf
  | ninf
  | num (q : ℚ)
deriving DecidableEq

/-- JavaScript truthiness of a parseFloat result: NaN and 0 are falsy. -/
def jsTruthy : JSNum → Bool
  | JSNum.nan => false
  | JSNum.num q => decide (q ≠ 0)
  | _ => true

/-- The isNaN test. -/
def jsIsNaN : JSNum → Bool
  | JSNum.nan => true
  | _ => false

/-- The data object of a KuCoin all-tickers message: each field is none
when absent or falsy as a raw string, and carries its parseFloat value
otherwise. -/
structure TickerData where
  bestAsk : Option JSNum
  price : Option JSNum
  bestBid : Option JSNum
deriving DecidableEq

/-- The price extraction chain
`parseFloat(data.bestAsk || data.price || data.bestBid)`; when every field
is falsy, parseFloat(undefined) is NaN. -/
def extractTickerPrice (d : TickerData) : JSNum :=
  match d.bestAsk with
  | some v => v
  | none =>
    match d.price with
    | some v => v
    | none =>
      match d.bestBid with
      | some v => v
      | none => JSNum.nan

/-- The KuCoin symbol map as an association list in source order. -/
def kucoinSymbolMap : List (String × String) :=
  [("btc", "BTC-USDT"), ("eth", "ETH-USDT"), ("sol", "SOL-USDT"), ("xrp", "XRP-USDT"),
   ("ada", "ADA-USDT"), ("doge", "DOGE-USDT"), ("bnb", "BNB-USDT"), ("ltc", "LTC-USDT"),
   ("matic", "POL-USDT"), ("avax", "AVAX-USDT"), ("dot", "DOT-USDT"), ("link", "LINK-USDT")]

/-- Reverse lookup of the KuCoin symbol map, as in handleTickerUpdate. -/
def resolveKucoinSymbol (subject : String) : Option String :=
  (kucoinSymbolMap.find? (fun p => p.2 == subject)).map Prod.fst

/-- handleTickerUpdate reduced to its observable effect: the (symbol,
price) pair passed to updateTick, or none when the guard
`ourSymbol && price && !isNaN(price)` rejects the message. -/
def handleTickerUpdate (subject : String) (d : TickerData) : Option (String × JSNum) :=
  let price := extractTickerPrice d
  match resolveKucoinSymbol subject with
  | none => none
  | some ourSymbol =>
    if jsTruthy price && !(jsIsNaN price) then some (ourSymbol, price) else none

/-! ### Concrete states and runs used by the claim instances -/

/-- The tick run of the specification example: prices 100, 101, 99, 102
within one 1m bucket, then 105 in the following 1m bucket. -/
def exampleRun : OHLCCache :=
  stepTick (stepTick (stepTick (stepTick (stepTick (mkOHLCCache 500)
    "btc" 100 1000) "btc" 101 2000) "btc" 99 3000) "btc" 102 4000) "btc" 105 61000

/-- A tick at 61000 (current 1m candle starts at 60000) followed by a
stale tick at 59000, which falls into the earlier 1m bucket. -/
def staleRun : OHLCCache :=
  stepTick (stepTick (mkOHLCCache 500) "btc" 100 61000) "btc" 99 59000

/-- The initial cache after loading one historical 1m bar for btc. -/
def loadedOne : OHLCCache :=
  loadHistoricalBars (mkOHLCCache 500) "btc" "1m" [newCandle 60000 7] 0

/-- A minimal state with one current 1m candle for btc, used to
instantiate the update lemmas. -/
def demoCache : OHLCCache where
  maxBars := 500
  cache := fun s => if s = "btc" then some (fun tf => if tf = "1m" then some [] else none) else none
  lastTick := fun _ => none
  errors := fun _ => 0
  currentCandles := fun s =>
    if s = "btc" then some (fun tf => if tf = "1m" then some (newCandle 60000 100) else none) else none

/-- A minimal state with one completed 1m bar for btc and no current
candles, used to instantiate the history-extension lemmas. -/
def demoHist : OHLCCache where
  maxBars := 500
  cache := fun s =>
    if s = "btc" then some (fun tf => if tf ∈ timeframes then some [newCandle 0 100] else none) else none
  lastTick := fun _ => none
  errors := fun _ => 0
  currentCandles := fun s => if s = "btc" then some (fun _ => none) else none

/-! ### Basic lemmas about bucketing and the bar lists -/

lemma getTimeframeMs_pos (tf : String) : 0 < getTimeframeMs tf := by
  simp only [getTimeframeMs]
  split_ifs <;> norm_num

lemma bucketStart_le (tf : String) (t : ℕ) : bucketStart tf t ≤ t :=
  Nat.div_mul_le_self t (getTimeframeMs tf)

lemma lt_bucketStart_add (tf : String) (t : ℕ) :
    t < bucketStart tf t + getTimeframeMs tf := by
  have hpos := getTimeframeMs_pos tf
  calc t = getTimeframeMs tf * (t / getTimeframeMs tf) + t % getTimeframeMs tf :=
        (Nat.div_add_mod t _).symm
    _ < getTimeframeMs tf * (t / getTimeframeMs tf) + getTimeframeMs tf :=
        Nat.add_lt_add_left (Nat.mod_lt t hpos) _
    _ = bucketStart tf t + getTimeframeMs tf := by
        simp only [bucketStart, Nat.mul_comm]

lemma bucketStart_stable (tf : String) (t u : ℕ)
    (h : t / getTimeframeMs tf = u / getTimeframeMs tf) :
    bucketStart tf t = bucketStart tf u := by
  simp only [bucketStart, h]

lemma jsSliceLast_suffix {α : Type} (l : List α) (n : ℕ) : jsSliceLast l n <:+ l := by
  simp only [jsSliceLast]
  split
  · exact List.suffix_refl l
  · exact List.drop_suffix _ l

lemma jsSliceLast_length_of_pos {α : Type} (l : List α) (n : ℕ) (hn : n ≠ 0) :
    (jsSliceLast l n).length = min n l.length := by
  simp only [jsSliceLast, if_neg hn, List.length_drop]
  omega

lemma jsSliceLast_idem_length {α : Type} (l : List α) (m : ℕ) :
    jsSliceLast (jsSliceLast l m) l.length = jsSliceLast l m := by
  by_cases h0 : l.length = 0
  · rw [List.length_eq_zero.mp h0]
    by_cases hm : m = 0 <;> simp [jsSliceLast, hm]
  · have hsub : (jsSliceLast l m).length ≤ l.length :=
      List.IsSuffix.length_le (jsSliceLast_suffix l m)
    rw [show jsSliceLast (jsSliceLast l m) l.length
          = (jsSliceLast l m).drop ((jsSliceLast l m).length - l.length) from by
        simp only [jsSliceLast, if_neg h0]]
    rw [Nat.sub_eq_zero_of_le hsub, List.drop_zero]

lemma pushCapped_length_le (mB : ℕ) (bars : List Candle) (cd : Candle)
    (h : bars.length ≤ mB) : (pushCapped mB bars cd).length ≤ mB := by
  simp only [pushCapped]
  split <;> simp_all

lemma pushCapped_at_cap (mB : ℕ) (bars : List Candle) (cd : Candle)
    (hpos : 0 < mB) (hlen : bars.length = mB) :
    pushCapped mB bars cd = bars.tail ++ [cd] := by
  simp only [pushCapped]
  rw [if_pos (by simp [hlen])]
  cases bars with
  | nil => simp at hlen; omega
  | cons a rest => simp

/-- Order preservation for completed-candle histories: the new list is the
old one with at most some oldest entries dropped from the front and some
entries appended at the back. -/
def histOrderExtends (old new : List Candle) : Prop :=
  ∃ k app, new = old.drop k ++ app

lemma histOrderExtends_refl (l : List Candle) : histOrderExtends l l :=
  ⟨0, [], by simp⟩

lemma histOrderExtends_push (mB : ℕ) (old : List Candle) (cd : Candle) :
    histOrderExtends old (pushCapped mB old cd) := by
  simp only [pushCapped]
  split
  · cases old with
    | nil => exact ⟨0, [], by simp⟩
    | cons a rest => exact ⟨1, [cd], by simp⟩
  · exact ⟨0, [cd], by simp⟩

lemma histOrderExtends_trans (a b c : List Candle)
    (h1 : histOrderExtends a b) (h2 : histOrderExtends b c) :
    histOrderExtends a c := by
  obtain ⟨k1, app1, rfl⟩ := h1
  obtain ⟨k2, app2, rfl⟩ := h2
  by_cases hk : k2 ≤ (a.drop k1).length
  · have hz : k2 - (a.drop k1).length = 0 := Nat.sub_eq_zero_of_le hk
    refine ⟨k1 + k2, app1 ++ app2, ?_⟩
    rw [List.drop_append_eq_append_drop, hz, List.drop_zero, List.drop_drop]
    simp [List.append_assoc]
  · push_neg at hk
    refine ⟨a.length, app1.drop (k2 - (a.drop k1).length) ++ app2, ?_⟩
    rw [List.drop_append_eq_append_drop]
    rw [List.drop_eq_nil_of_le (le_of_lt hk), List.drop_eq_nil_of_le (le_refl a.length)]
    simp

/-! ### Behaviour of updateOHLC -/

/-- A tick whose bucket start equals the time of the current candle updates
the candle in place: high and low absorb the price, close becomes the
price, and nothing else in the state changes. -/
lemma updateOHLC_in_place (c : OHLCCache) (s tf : String) (p : ℚ) (ts : ℕ)
    (curMap : String → Option Candle) (cur : Candle)
    (h1 : c.currentCandles s = some curMap) (h2 : curMap tf = some cur)
    (h3 : cur.time = bucketStart tf ts) :
    updateOHLC c s tf p ts = Except.ok { c with
      currentCandles := upd c.currentCandles s (some (upd curMap tf
        (some { cur with high := max cur.high p, low := min cur.low p, close := p }))) } := by
  simp [updateOHLC, h1, h2, h3]

/-- A tick whose bucket start differs from the current candle closes the
current candle into history (with capped push) and opens a fresh candle at
the new bucket start. -/
lemma updateOHLC_rollover (c : OHLCCache) (s tf : String) (p : ℚ) (ts : ℕ)
    (curMap : String → Option Candle) (cur : Candle)
    (m : String → Option (List Candle)) (bars : List Candle)
    (h1 : c.currentCandles s = some curMap) (h2 : curMap tf = some cur)
    (h3 : cur.time ≠ bucketStart tf ts)
    (h4 : c.cache s = some m) (h5 : m tf = some bars) :
    updateOHLC c s tf p ts = Except.ok { c with
      cache := upd c.cache s (some (upd m tf (some (pushCapped c.maxBars bars cur)))),
      currentCandles := upd c.currentCandles s (some (upd curMap tf
        (some (newCandle (bucketStart tf ts) p)))) } := by
  simp [updateOHLC, h1, h2, h3, addCompletedCandle, h4, h5]

/-- With no current candle for the key, a tick opens a fresh candle and
touches nothing else. -/
lemma updateOHLC_fresh (c : OHLCCache) (s tf : String) (p : ℚ) (ts : ℕ)
    (curMap : String → Option Candle)
    (h1 : c.currentCandles s = some curMap) (h2 : curMap tf = none) :
    updateOHLC c s tf p ts = Except.ok { c with
      currentCandles := upd c.currentCandles s (some (upd curMap tf
        (some (newCandle (bucketStart tf ts) p)))) } := by
  simp [updateOHLC, h1, h2]

/-- With the symbol key absent from currentCandles, updateOHLC raises. -/
lemma updateOHLC_unknown (c : OHLCCache) (s tf : String) (p : ℚ) (ts : ℕ)
    (h1 : c.currentCandles s = none) :
    updateOHLC c s tf p ts = Except.error "TypeError" := by
  simp [updateOHLC, h1]

lemma storedBars_eq (c : OHLCCache) (s tf : String) (m : String → Option (List Candle))
    (h : c.cache s = some m) : storedBars c s tf = m tf := by
  simp [storedBars, h]

/-- When updateOHLC cannot push the closing candle (missing cache key), it
raises instead of returning. -/
lemma updateOHLC_rollover_error (c : OHLCCache) (s tf : String) (p : ℚ) (ts : ℕ)
    (curMap : String → Option Candle) (cur : Candle)
    (h1 : c.currentCandles s = some curMap) (h2 : curMap tf = some cur)
    (h3 : cur.time ≠ bucketStart tf ts)
    (h4 : (c.cache s).elim True (fun m => m tf = none)) :
    updateOHLC c s tf p ts = Except.error "TypeError" := by
  cases hca : c.cache s with
  | none => simp [updateOHLC, h1, h2, h3, addCompletedCandle, hca]
  | some m =>
    rw [hca] at h4
    simp only [Option.elim] at h4
    simp [updateOHLC, h1, h2, h3, addCompletedCandle, hca, h4]

/-- One successful updateOHLC step only extends stored histories: every
previously stored list survives, unchanged or push-capped once. -/
lemma storedBars_updateOHLC (c c2 : OHLCCache) (s tf : String) (p : ℚ) (ts : ℕ)
    (h : updateOHLC c s tf p ts = Except.ok c2) (s2 tf2 : String) (old : List Candle)
    (hold : storedBars c s2 tf2 = some old) :
    ∃ new, storedBars c2 s2 tf2 = some new ∧
      (new = old ∨ ∃ cd, new = pushCapped c.maxBars old cd) := by
  cases hcc : c.currentCandles s with
  | none =>
    rw [updateOHLC_unknown c s tf p ts hcc] at h
    exact absurd h (by simp)
  | some curMap =>
    cases hct : curMap tf with
    | none =>
      rw [updateOHLC_fresh c s tf p ts curMap hcc hct] at h
      have hc2 := Except.ok.inj h
      subst hc2
      refine ⟨old, ?_, Or.inl rfl⟩
      simpa [storedBars] using hold
    | some cur =>
      by_cases htime : cur.time = bucketStart tf ts
      · rw [updateOHLC_in_place c s tf p ts curMap cur hcc hct htime] at h
        have hc2 := Except.ok.inj h
        subst hc2
        refine ⟨old, ?_, Or.inl rfl⟩
        simpa [storedBars] using hold
      · cases hca : c.cache s with
        | none =>
          rw [updateOHLC_rollover_error c s tf p ts curMap cur hcc hct htime (by rw [hca]; trivial)] at h
          exact absurd h (by simp)
        | some m =>
          cases hmt : m tf with
          | none =>
            rw [updateOHLC_rollover_error c s tf p ts curMap cur hcc hct htime (by rw [hca]; simpa using hmt)] at h
            exact absurd h (by simp)
          | some bars =>
            rw [updateOHLC_rollover c s tf p ts curMap cur m bars hcc hct htime hca hmt] at h
            have hc2 := Except.ok.inj h
            subst hc2
            by_cases hs2 : s2 = s
            · subst hs2
              rw [storedBars_eq c s2 tf2 m hca] at hold
              by_cases htf2 : tf2 = tf
              · subst htf2
                rw [hmt] at hold
                have hbars := Option.some.inj hold
                refine ⟨pushCapped c.maxBars bars cur, ?_, Or.inr ⟨cur, by rw [hbars]⟩⟩
                simp [storedBars, upd]
              · refine ⟨old, ?_, Or.inl rfl⟩
                simp only [storedBars, upd, if_pos rfl]
                simpa [upd, htf2] using hold
            · refine ⟨old, ?_, Or.inl rfl⟩
              simp only [storedBars, upd, if_neg hs2]
              simpa [storedBars] using hold

/-- Complete case analysis of a successful updateOHLC call: the three
possible outcomes (in-place update, fresh candle, rollover), each with the
exact resulting state. -/
lemma updateOHLC_cases (c c2 : OHLCCache) (s tf : String) (p : ℚ) (ts : ℕ)
    (h : updateOHLC c s tf p ts = Except.ok c2) :
    c2.maxBars = c.maxBars ∧ c2.lastTick = c.lastTick ∧ c2.errors = c.errors ∧
    ∃ curMap, c.currentCandles s = some curMap ∧
      ((∃ cur, curMap tf = some cur ∧ cur.time = bucketStart tf ts ∧
          c2.cache = c.cache ∧
          c2.currentCandles = upd c.currentCandles s (some (upd curMap tf
            (some { cur with high := max cur.high p, low := min cur.low p, close := p })))) ∨
       (curMap tf = none ∧ c2.cache = c.cache ∧
          c2.currentCandles = upd c.currentCandles s (some (upd curMap tf
            (some (newCandle (bucketStart tf ts) p))))) ∨
       (∃ cur m bars, curMap tf = some cur ∧ cur.time ≠ bucketStart tf ts ∧
          c.cache s = some m ∧ m tf = some bars ∧
          c2.cache = upd c.cache s (some (upd m tf (some (pushCapped c.maxBars bars cur)))) ∧
          c2.currentCandles = upd c.currentCandles s (some (upd curMap tf
            (some (newCandle (bucketStart tf ts) p)))))) := by
  cases hcc : c.currentCandles s with
  | none =>
    rw [updateOHLC_unknown c s tf p ts hcc] at h
    exact absurd h (by simp)
  | some curMap =>
    cases hct : curMap tf with
    | none =>
      rw [updateOHLC_fresh c s tf p ts curMap hcc hct] at h
      have hc2 := Except.ok.inj h
      subst hc2
      exact ⟨rfl, rfl, rfl, curMap, rfl, Or.inr (Or.inl ⟨hct, rfl, rfl⟩)⟩
    | some cur =>
      by_cases htime : cur.time = bucketStart tf ts
      · rw [updateOHLC_in_place c s tf p ts curMap cur hcc hct htime] at h
        have hc2 := Except.ok.inj h
        subst hc2
        exact ⟨rfl, rfl, rfl, curMap, rfl, Or.inl ⟨cur, hct, htime, rfl, rfl⟩⟩
      · cases hca : c.cache s with
        | none =>
          rw [updateOHLC_rollover_error c s tf p ts curMap cur hcc hct htime (by rw [hca]; trivial)] at h
          exact absurd h (by simp)
        | some m =>
          cases hmt : m tf with
          | none =>
            rw [updateOHLC_rollover_error c s tf p ts curMap cur hcc hct htime (by rw [hca]; simpa using hmt)] at h
            exact absurd h (by simp)
          | some bars =>
            rw [updateOHLC_rollover c s tf p ts curMap cur m bars hcc hct htime hca hmt] at h
            have hc2 := Except.ok.inj h
            subst hc2
            exact ⟨rfl, rfl, rfl, curMap, rfl,
              Or.inr (Or.inr ⟨cur, m, bars, hct, htime, rfl, hmt, rfl, rfl⟩)⟩

/-- Membership in a capped push comes from the old list or the new candle. -/
lemma mem_pushCapped (mB : ℕ) (bars : List Candle) (cd b : Candle)
    (hb : b ∈ pushCapped mB bars cd) : b ∈ bars ∨ b = cd := by
  simp only [pushCapped] at hb
  have hb2 : b ∈ bars ++ [cd] := by
    split at hb
    · exact (List.tail_sublist _).subset hb
    · exact hb
  simpa using hb2

/-- updateTFs only extends stored histories, in order. -/
lemma storedBars_updateTFs (tfs : List String) (s : String)
    (p : ℚ) (ts : ℕ) (s2 tf2 : String) :
    ∀ (c c2 : OHLCCache) (old : List Candle),
      updateTFs c s tfs p ts = Except.ok c2 →
      storedBars c s2 tf2 = some old →
      ∃ new, storedBars c2 s2 tf2 = some new ∧ histOrderExtends old new := by
  induction tfs with
  | nil =>
    intro c c2 old h hold
    simp only [updateTFs, Except.ok.injEq] at h
    subst h
    exact ⟨old, hold, histOrderExtends_refl old⟩
  | cons tf rest ih =>
    intro c c2 old h hold
    simp only [updateTFs] at h
    cases hstep : updateOHLC c s tf p ts with
    | error e => rw [hstep] at h; exact absurd h (by simp)
    | ok cmid =>
      rw [hstep] at h
      obtain ⟨mid, hmid, hext⟩ := storedBars_updateOHLC c cmid s tf p ts hstep s2 tf2 old hold
      obtain ⟨new, hnew, hext2⟩ := ih cmid c2 mid h hmid
      refine ⟨new, hnew, histOrderExtends_trans old mid new ?_ hext2⟩
      rcases hext with heq | ⟨cd, heq⟩
      · rw [heq]
        exact histOrderExtends_refl old
      · rw [heq]
        exact histOrderExtends_push c.maxBars old cd

/-- A successful updateTick only extends stored histories, in order: no
completed candle is ever rewritten or reordered. -/
lemma storedBars_updateTick (c c2 : OHLCCache) (s : String) (p : ℚ)
    (src : String) (tsOpt : Option ℕ) (nowMs : ℕ)
    (h : updateTick c s p src tsOpt nowMs = Except.ok c2)
    (s2 tf2 : String) (old : List Candle) (hold : storedBars c s2 tf2 = some old) :
    ∃ new, storedBars c2 s2 tf2 = some new ∧ histOrderExtends old new := by
  simp only [updateTick] at h
  exact storedBars_updateTFs timeframes s p _ s2 tf2 _ c2 old h hold

/-! ### Invariant: zero volume for tick-built candles -/

/-- Every candle held anywhere in the cache state has volume zero. -/
def VolZero (c : OHLCCache) : Prop :=
  (∀ s m, c.cache s = some m → ∀ tf bars, m tf = some bars → ∀ b ∈ bars, b.volume = 0) ∧
  (∀ s m, c.currentCandles s = some m → ∀ tf cd, m tf = some cd → cd.volume = 0)

lemma volZero_mk (mB : ℕ) : VolZero (mkOHLCCache mB) := by
  constructor
  · intro s m hm tf bars hbars b hb
    simp only [mkOHLCCache] at hm
    by_cases hs : s ∈ symbols
    · rw [if_pos hs] at hm
      have hm2 := Option.some.inj hm
      subst hm2
      by_cases htf : tf ∈ timeframes
      · have hb2 : some ([] : List Candle) = some bars := by
          rw [← hbars]
          simp [htf]
        have := Option.some.inj hb2
        subst this
        simp at hb
      · simp [htf] at hbars
    · rw [if_neg hs] at hm
      exact absurd hm (by simp)
  · intro s m hm tf cd hcd
    simp only [mkOHLCCache] at hm
    by_cases hs : s ∈ symbols
    · rw [if_pos hs] at hm
      have hm2 := Option.some.inj hm
      subst hm2
      exact absurd hcd (by simp)
    · rw [if_neg hs] at hm
      exact absurd hm (by simp)

lemma volZero_updateOHLC (c c2 : OHLCCache) (s tf : String) (p : ℚ) (ts : ℕ)
    (h : updateOHLC c s tf p ts = Except.ok c2) (hv : VolZero c) : VolZero c2 := by
  obtain ⟨-, -, -, curMap, hcc, hcase⟩ := updateOHLC_cases c c2 s tf p ts h
  rcases hcase with ⟨cur, hct, -, hcache, hcur⟩ | ⟨hct, hcache, hcur⟩ |
    ⟨cur, m, bars, hct, -, hca, hmt, hcache, hcur⟩
  · constructor
    · intro s2 m2 hm2 tf2 bars2 hb2 b hb
      exact hv.1 s2 m2 (by rw [← hcache]; exact hm2) tf2 bars2 hb2 b hb
    · intro s2 m2 hm2 tf2 cd hcd
      rw [hcur] at hm2
      simp only [upd] at hm2
      by_cases hs2 : s2 = s
      · rw [if_pos hs2] at hm2
        have hm3 := Option.some.inj hm2
        subst hm3
        simp only [upd] at hcd
        by_cases htf2 : tf2 = tf
        · rw [if_pos htf2] at hcd
          have := Option.some.inj hcd
          subst this
          simpa using hv.2 s curMap hcc tf cur hct
        · rw [if_neg htf2] at hcd
          exact hv.2 s curMap hcc tf2 cd hcd
      · rw [if_neg hs2] at hm2
        exact hv.2 s2 m2 hm2 tf2 cd hcd
  · constructor
    · intro s2 m2 hm2 tf2 bars2 hb2 b hb
      exact hv.1 s2 m2 (by rw [← hcache]; exact hm2) tf2 bars2 hb2 b hb
    · intro s2 m2 hm2 tf2 cd hcd
      rw [hcur] at hm2
      simp only [upd] at hm2
      by_cases hs2 : s2 = s
      · rw [if_pos hs2] at hm2
        have hm3 := Option.some.inj hm2
        subst hm3
        simp only [upd] at hcd
        by_cases htf2 : tf2 = tf
        · rw [if_pos htf2] at hcd
          have := Option.some.inj hcd
          subst this
          simp [newCandle]
        · rw [if_neg htf2] at hcd
          exact hv.2 s curMap hcc tf2 cd hcd
      · rw [if_neg hs2] at hm2
        exact hv.2 s2 m2 hm2 tf2 cd hcd
  · constructor
    · intro s2 m2 hm2 tf2 bars2 hb2 b hb
      rw [hcache] at hm2
      simp only [upd] at hm2
      by_cases hs2 : s2 = s
      · rw [if_pos hs2] at hm2
        have hm3 := Option.some.inj hm2
        subst hm3
        simp only [upd] at hb2
        by_cases htf2 : tf2 = tf
        · rw [if_pos htf2] at hb2
          have := Option.some.inj hb2
          subst this
          rcases mem_pushCapped c.maxBars bars cur b hb with hmem | heq
          · exact hv.1 s m hca tf bars hmt b hmem
          · rw [heq]
            simpa using hv.2 s curMap hcc tf cur hct
        · rw [if_neg htf2] at hb2
          exact hv.1 s m hca tf2 bars2 hb2 b hb
      · rw [if_neg hs2] at hm2
        exact hv.1 s2 m2 hm2 tf2 bars2 hb2 b hb
    · intro s2 m2 hm2 tf2 cd hcd
      rw [hcur] at hm2
      simp only [upd] at hm2
      by_cases hs2 : s2 = s
      · rw [if_pos hs2] at hm2
        have hm3 := Option.some.inj hm2
        subst hm3
        simp only [upd] at hcd
        by_cases htf2 : tf2 = tf
        · rw [if_pos htf2] at hcd
          have := Option.some.inj hcd
          subst this
          simp [newCandle]
        · rw [if_neg htf2] at hcd
          exact hv.2 s curMap hcc tf2 cd hcd
      · rw [if_neg hs2] at hm2
        exact hv.2 s2 m2 hm2 tf2 cd hcd

lemma volZero_updateTFs (tfs : List String) (s : String) (p : ℚ) (ts : ℕ) :
    ∀ c c2 : OHLCCache, updateTFs c s tfs p ts = Except.ok c2 → VolZero c → VolZero c2 := by
  induction tfs with
  | nil =>
    intro c c2 h hv
    simp only [updateTFs, Except.ok.injEq] at h
    subst h
    exact hv
  | cons tf rest ih =>
    intro c c2 h hv
    simp only [updateTFs] at h
    cases hstep : updateOHLC c s tf p ts with
    | error e => rw [hstep] at h; exact absurd h (by simp)
    | ok cmid =>
      rw [hstep] at h
      exact ih cmid c2 h (volZero_updateOHLC c cmid s tf p ts hstep hv)

lemma volZero_updateTick (c c2 : OHLCCache) (s : String) (p : ℚ) (src : String)
    (tsOpt : Option ℕ) (nowMs : ℕ)
    (h : updateTick c s p src tsOpt nowMs = Except.ok c2) (hv : VolZero c) : VolZero c2 := by
  simp only [updateTick] at h
  refine volZero_updateTFs timeframes s p _ _ c2 h ?_
  exact ⟨fun s2 m2 hm2 tf2 bars2 hb2 b hb => hv.1 s2 m2 hm2 tf2 bars2 hb2 b hb,
    fun s2 m2 hm2 tf2 cd hcd => hv.2 s2 m2 hm2 tf2 cd hcd⟩

lemma volZero_stepTick (c : OHLCCache) (s : String) (p : ℚ) (nowMs : ℕ)
    (hv : VolZero c) : VolZero (stepTick c s p nowMs) := by
  simp only [stepTick]
  cases hstep : updateTick c s p "ws" none nowMs with
  | error e => exact hv
  | ok c2 => exact volZero_updateTick c c2 s p "ws" none nowMs hstep hv

lemma volZero_runTicks (ticks : List (String × ℚ × ℕ)) :
    ∀ c : OHLCCache, VolZero c → VolZero (runTicks c ticks) := by
  induction ticks with
  | nil => intro c hv; exact hv
  | cons t rest ih =>
    intro c hv
    obtain ⟨s, p, ts⟩ := t
    exact ih (stepTick c s p ts) (volZero_stepTick c s p ts hv)

/-- Every stored history is within the configured cap. -/
def CapInv (c : OHLCCache) : Prop :=
  ∀ s m, c.cache s = some m → ∀ tf bars, m tf = some bars → bars.length ≤ c.maxBars

lemma capInv_mk (mB : ℕ) : CapInv (mkOHLCCache mB) := by
  intro s m hm tf bars hbars
  simp only [mkOHLCCache] at hm
  by_cases hs : s ∈ symbols
  · rw [if_pos hs] at hm
    have hm2 := Option.some.inj hm
    subst hm2
    by_cases htf : tf ∈ timeframes
    · have hb2 : some ([] : List Candle) = some bars := by
        rw [← hbars]
        simp [htf]
      have := Option.some.inj hb2
      subst this
      simp [mkOHLCCache]
    · simp [htf] at hbars
  · rw [if_neg hs] at hm
    exact absurd hm (by simp)

lemma capInv_updateOHLC (c c2 : OHLCCache) (s tf : String) (p : ℚ) (ts : ℕ)
    (h : updateOHLC c s tf p ts = Except.ok c2) (hv : CapInv c) : CapInv c2 := by
  obtain ⟨hmax, -, -, curMap, hcc, hcase⟩ := updateOHLC_cases c c2 s tf p ts h
  rcases hcase with ⟨cur, hct, -, hcache, -⟩ | ⟨hct, hcache, -⟩ |
    ⟨cur, m, bars, hct, -, hca, hmt, hcache, -⟩
  · intro s2 m2 hm2 tf2 bars2 hb2
    rw [hmax]
    exact hv s2 m2 (by rw [← hcache]; exact hm2) tf2 bars2 hb2
  · intro s2 m2 hm2 tf2 bars2 hb2
    rw [hmax]
    exact hv s2 m2 (by rw [← hcache]; exact hm2) tf2 bars2 hb2
  · intro s2 m2 hm2 tf2 bars2 hb2
    rw [hmax]
    rw [hcache] at hm2
    simp only [upd] at hm2
    by_cases hs2 : s2 = s
    · rw [if_pos hs2] at hm2
      have hm3 := Option.some.inj hm2
      subst hm3
      simp only [upd] at hb2
      by_cases htf2 : tf2 = tf
      · rw [if_pos htf2] at hb2
        have := Option.some.inj hb2
        subst this
        exact pushCapped_length_le c.maxBars bars cur (hv s m hca tf bars hmt)
      · rw [if_neg htf2] at hb2
        exact hv s m hca tf2 bars2 hb2
    · rw [if_neg hs2] at hm2
      exact hv s2 m2 hm2 tf2 bars2 hb2

lemma capInv_updateTFs (tfs : List String) (s : String) (p : ℚ) (ts : ℕ) :
    ∀ c c2 : OHLCCache, updateTFs c s tfs p ts = Except.ok c2 → CapInv c → CapInv c2 := by
  induction tfs with
  | nil =>
    intro c c2 h hv
    simp only [updateTFs, Except.ok.injEq] at h
    subst h
    exact hv
  | cons tf rest ih =>
    intro c c2 h hv
    simp only [updateTFs] at h
    cases hstep : updateOHLC c s tf p ts with
    | error e => rw [hstep] at h; exact absurd h (by simp)
    | ok cmid =>
      rw [hstep] at h
      exact ih cmid c2 h (capInv_updateOHLC c cmid s tf p ts hstep hv)

lemma capInv_updateTick (c c2 : OHLCCache) (s : String) (p : ℚ) (src : String)
    (tsOpt : Option ℕ) (nowMs : ℕ)
    (h : updateTick c s p src tsOpt nowMs = Except.ok c2) (hv : CapInv c) : CapInv c2 := by
  simp only [updateTick] at h
  refine capInv_updateTFs timeframes s p _ _ c2 h ?_
  intro s2 m2 hm2 tf2 bars2 hb2
  exact hv s2 m2 hm2 tf2 bars2 hb2

lemma capInv_loadHistoricalBars (c : OHLCCache) (s tf : String) (bars : List Candle)
    (nowMs : ℕ) (hpos : 0 < c.maxBars) (hv : CapInv c) :
    CapInv (loadHistoricalBars c s tf bars nowMs) := by
  simp only [loadHistoricalBars]
  cases hca : c.cache s with
  | none => simp only [hca]; exact hv
  | some m =>
    simp only [hca]
    cases hmt : m tf with
    | none => simp only [hmt]; exact hv
    | some old =>
      simp only [hmt]
      have hkey : ∀ s2 m2,
          upd c.cache s (some (upd m tf (some (jsSliceLast bars c.maxBars)))) s2 = some m2 →
          ∀ tf2 bars2, m2 tf2 = some bars2 → bars2.length ≤ c.maxBars := by
        intro s2 m2 hm2 tf2 bars2 hb2
        simp only [upd] at hm2
        by_cases hs2 : s2 = s
        · rw [if_pos hs2] at hm2
          have hm3 := Option.some.inj hm2
          subst hm3
          simp only [upd] at hb2
          by_cases htf2 : tf2 = tf
          · rw [if_pos htf2] at hb2
            have := Option.some.inj hb2
            subst this
            rw [jsSliceLast_length_of_pos bars c.maxBars (by omega)]
            omega
          · rw [if_neg htf2] at hb2
            exact hv s m hca tf2 bars2 hb2
        · rw [if_neg hs2] at hm2
          exact hv s2 m2 hm2 tf2 bars2 hb2
      cases hlast : bars.getLast? with
      | none =>
        simp only [hlast]
        intro s2 m2 hm2 tf2 bars2 hb2
        exact hkey s2 m2 hm2 tf2 bars2 hb2
      | some lastBar =>
        simp only [hlast]
        intro s2 m2 hm2 tf2 bars2 hb2
        exact hkey s2 m2 hm2 tf2 bars2 hb2

lemma capInv_getBars (c : OHLCCache) (s tf : String) (n : ℕ) (hn : 1 ≤ n)
    (hv : CapInv c) : (getBars c s tf n).length ≤ min n c.maxBars := by
  simp only [getBars]
  cases hca : c.cache s with
  | none => simp only [hca]; simp
  | some m =>
    simp only [hca]
    cases hmt : m tf with
    | none => simp only [hmt]; simp
    | some bars =>
      simp only [hmt]
      have hcap := hv s m hca tf bars hmt
      rw [jsSliceLast_length_of_pos bars n (by omega)]
      omega

/-- getBars always returns a suffix of the stored history, preserving the
stored oldest-to-newest order. -/
lemma getBars_suffix (c : OHLCCache) (s tf : String) (n : ℕ) (bars : List Candle)
    (h : storedBars c s tf = some bars) : getBars c s tf n <:+ bars := by
  simp only [getBars, storedBars] at h ⊢
  cases hca : c.cache s with
  | none => simp only [hca] at h; exact absurd h (by simp)
  | some m =>
    simp only [hca] at h ⊢
    cases hmt : m tf with
    | none => simp only [hmt] at h; exact absurd h (by simp)
    | some stored =>
      simp only [hmt] at h ⊢
      have := Option.some.inj h
      subst this
      exact jsSliceLast_suffix stored n

/-- Well-formedness of the key structure: exactly the twelve constructor
symbols have cache and currentCandles entries, their cache rows carry
exactly the four timeframes, and every known symbol has a last-tick
record. -/
structure WF (c : OHLCCache) : Prop where
  curNone : ∀ s, s ∉ symbols → c.currentCandles s = none
  cacheNone : ∀ s, s ∉ symbols → c.cache s = none
  cacheTFNone : ∀ s m, c.cache s = some m → ∀ tf, tf ∉ timeframes → m tf = none
  lastSome : ∀ s, s ∈ symbols → ∃ t, c.lastTick s = some t
  cacheSome : ∀ s, s ∈ symbols →
    ∃ m, c.cache s = some m ∧ ∀ tf, tf ∈ timeframes → ∃ bars, m tf = some bars

lemma wf_mk (mB : ℕ) : WF (mkOHLCCache mB) := by
  constructor
  · intro s hs
    simp [mkOHLCCache, hs]
  · intro s hs
    simp [mkOHLCCache, hs]
  · intro s m hm tf htf
    simp only [mkOHLCCache] at hm
    by_cases hs : s ∈ symbols
    · rw [if_pos hs] at hm
      have := Option.some.inj hm
      subst this
      simp [htf]
    · rw [if_neg hs] at hm
      exact absurd hm (by simp)
  · intro s hs
    exact ⟨⟨none, none, none⟩, by simp [mkOHLCCache, hs]⟩
  · intro s hs
    refine ⟨fun tf => if tf ∈ timeframes then some [] else none,
      by simp [mkOHLCCache, hs], ?_⟩
    intro tf htf
    exact ⟨[], by simp [htf]⟩

lemma wf_updateOHLC (c c2 : OHLCCache) (s tf : String) (p : ℚ) (ts : ℕ)
    (h : updateOHLC c s tf p ts = Except.ok c2) (hwf : WF c) : WF c2 := by
  obtain ⟨-, hlast, -, curMap, hcc, hcase⟩ := updateOHLC_cases c c2 s tf p ts h
  have hsym : s ∈ symbols := by
    by_contra hs
    rw [hwf.curNone s hs] at hcc
    exact absurd hcc (by simp)
  have hcurUpd : ∀ (v : Option Candle),
      (∀ s2, s2 ∉ symbols →
        upd c.currentCandles s (some (upd curMap tf v)) s2 = none) := by
    intro v s2 hs2
    have hne : s2 ≠ s := fun heq => hs2 (heq ▸ hsym)
    simp only [upd, if_neg hne]
    exact hwf.curNone s2 hs2
  rcases hcase with ⟨cur, hct, -, hcache, hcur⟩ | ⟨hct, hcache, hcur⟩ |
    ⟨cur, m, bars, hct, -, hca, hmt, hcache, hcur⟩
  · exact ⟨by rw [hcur]; exact hcurUpd _, by rw [hcache]; exact hwf.cacheNone,
      by rw [hcache]; exact hwf.cacheTFNone, by rw [hlast]; exact hwf.lastSome,
      by rw [hcache]; exact hwf.cacheSome⟩
  · exact ⟨by rw [hcur]; exact hcurUpd _, by rw [hcache]; exact hwf.cacheNone,
      by rw [hcache]; exact hwf.cacheTFNone, by rw [hlast]; exact hwf.lastSome,
      by rw [hcache]; exact hwf.cacheSome⟩
  · have htfKnown : tf ∈ timeframes := by
      by_contra htf
      rw [hwf.cacheTFNone s m hca tf htf] at hmt
      exact absurd hmt (by simp)
    refine ⟨by rw [hcur]; exact hcurUpd _, ?_, ?_, by rw [hlast]; exact hwf.lastSome, ?_⟩
    · intro s2 hs2
      have hne : s2 ≠ s := fun heq => hs2 (heq ▸ hsym)
      rw [hcache]
      simp only [upd, if_neg hne]
      exact hwf.cacheNone s2 hs2
    · intro s2 m2 hm2 tf2 htf2
      rw [hcache] at hm2
      simp only [upd] at hm2
      by_cases hs2 : s2 = s
      · rw [if_pos hs2] at hm2
        have := Option.some.inj hm2
        subst this
        have hne : tf2 ≠ tf := fun heq => htf2 (heq ▸ htfKnown)
        simp only [upd, if_neg hne]
        exact hwf.cacheTFNone s m hca tf2 htf2
      · rw [if_neg hs2] at hm2
        exact hwf.cacheTFNone s2 m2 hm2 tf2 htf2
    · intro s2 hs2
      rw [hcache]
      by_cases heq : s2 = s
      · subst heq
        refine ⟨upd m tf (some (pushCapped c.maxBars bars cur)), by simp [upd], ?_⟩
        intro tf2 htf2
        obtain ⟨m0, hm0, hall⟩ := hwf.cacheSome s2 hs2
        rw [hca] at hm0
        have := Option.some.inj hm0
        subst this
        by_cases htfeq : tf2 = tf
        · subst htfeq
          exact ⟨pushCapped c.maxBars bars cur, by simp [upd]⟩
        · obtain ⟨bars2, hb2⟩ := hall tf2 htf2
          exact ⟨bars2, by simp only [upd, if_neg htfeq]; exact hb2⟩
      · obtain ⟨m0, hm0, hall⟩ := hwf.cacheSome s2 hs2
        exact ⟨m0, by simp only [upd, if_neg heq]; exact hm0, hall⟩

lemma wf_updateTFs (tfs : List String) (s : String) (p : ℚ) (ts : ℕ) :
    ∀ c c2 : OHLCCache, updateTFs c s tfs p ts = Except.ok c2 → WF c → WF c2 := by
  induction tfs with
  | nil =>
    intro c c2 h hwf
    simp only [updateTFs, Except.ok.injEq] at h
    subst h
    exact hwf
  | cons tf rest ih =>
    intro c c2 h hwf
    simp only [updateTFs] at h
    cases hstep : updateOHLC c s tf p ts with
    | error e => rw [hstep] at h; exact absurd h (by simp)
    | ok cmid =>
      rw [hstep] at h
      exact ih cmid c2 h (wf_updateOHLC c cmid s tf p ts hstep hwf)

/-- Setting a last tick preserves well-formedness. -/
lemma wf_setLastTick (c : OHLCCache) (s : String) (t : LastTick) (hwf : WF c) :
    WF { c with lastTick := upd c.lastTick s (some t) } := by
  refine ⟨hwf.curNone, hwf.cacheNone, hwf.cacheTFNone, ?_, hwf.cacheSome⟩
  intro s2 hs2
  by_cases heq : s2 = s
  · exact ⟨t, by simp [upd, heq]⟩
  · obtain ⟨t0, ht0⟩ := hwf.lastSome s2 hs2
    exact ⟨t0, by simp only [upd, if_neg heq]; exact ht0⟩

lemma wf_updateTick (c c2 : OHLCCache) (s : String) (p : ℚ) (src : String)
    (tsOpt : Option ℕ) (nowMs : ℕ)
    (h : updateTick c s p src tsOpt nowMs = Except.ok c2) (hwf : WF c) : WF c2 := by
  simp only [updateTick] at h
  exact wf_updateTFs timeframes s p _ _ c2 h (wf_setLastTick c s _ hwf)

lemma wf_loadHistoricalBars (c : OHLCCache) (s tf : String) (bars : List Candle)
    (nowMs : ℕ) (hwf : WF c) : WF (loadHistoricalBars c s tf bars nowMs) := by
  simp only [loadHistoricalBars]
  cases hca : c.cache s with
  | none => simp only [hca]; exact hwf
  | some m =>
    simp only [hca]
    cases hmt : m tf with
    | none => simp only [hmt]; exact hwf
    | some old =>
      simp only [hmt]
      have hsym : s ∈ symbols := by
        by_contra hs
        rw [hwf.cacheNone s hs] at hca
        exact absurd hca (by simp)
      have htfKnown : tf ∈ timeframes := by
        by_contra htf
        rw [hwf.cacheTFNone s m hca tf htf] at hmt
        exact absurd hmt (by simp)
      have hwf1 : WF { c with
          cache := upd c.cache s (some (upd m tf (some (jsSliceLast bars c.maxBars)))) } := by
        refine ⟨hwf.curNone, ?_, ?_, hwf.lastSome, ?_⟩
        · intro s2 hs2
          have hne : s2 ≠ s := fun heq => hs2 (heq ▸ hsym)
          simp only [upd, if_neg hne]
          exact hwf.cacheNone s2 hs2
        · intro s2 m2 hm2 tf2 htf2
          simp only [upd] at hm2
          by_cases hs2 : s2 = s
          · rw [if_pos hs2] at hm2
            have := Option.some.inj hm2
            subst this
            have hne : tf2 ≠ tf := fun heq => htf2 (heq ▸ htfKnown)
            simp only [upd, if_neg hne]
            exact hwf.cacheTFNone s m hca tf2 htf2
          · rw [if_neg hs2] at hm2
            exact hwf.cacheTFNone s2 m2 hm2 tf2 htf2
        · intro s2 hs2
          by_cases heq : s2 = s
          · subst heq
            refine ⟨upd m tf (some (jsSliceLast bars c.maxBars)), by simp [upd], ?_⟩
            intro tf2 htf2
            obtain ⟨m0, hm0, hall⟩ := hwf.cacheSome s2 hs2
            rw [hca] at hm0
            have := Option.some.inj hm0
            subst this
            by_cases htfeq : tf2 = tf
            · subst htfeq
              exact ⟨jsSliceLast bars c.maxBars, by simp [upd]⟩
            · obtain ⟨bars2, hb2⟩ := hall tf2 htf2
              exact ⟨bars2, by simp only [upd, if_neg htfeq]; exact hb2⟩
          · obtain ⟨m0, hm0, hall⟩ := hwf.cacheSome s2 hs2
            exact ⟨m0, by simp only [upd, if_neg heq]; exact hm0, hall⟩
      cases hlast : bars.getLast? with
      | none => simp only [hlast]; exact hwf1
      | some lastBar =>
        simp only [hlast]
        exact wf_setLastTick _ s _ hwf1

/-- recordError touches only the error counters. -/
lemma wf_recordError (c : OHLCCache) (s : String) (hwf : WF c) : WF (recordError c s) :=
  ⟨hwf.curNone, hwf.cacheNone, hwf.cacheTFNone, hwf.lastSome, hwf.cacheSome⟩

lemma updateTFs_head_error (c : OHLCCache) (s tf : String) (rest : List String)
    (p : ℚ) (ts : ℕ) (e : String) (h : updateOHLC c s tf p ts = Except.error e) :
    updateTFs c s (tf :: rest) p ts = Except.error e := by
  simp only [updateTFs, h]

/-- On a well-formed state, updateTick with an unknown symbol raises the
TypeError coming from the currentCandles lookup. -/
lemma updateTick_unknown_symbol (c : OHLCCache) (hwf : WF c) (s : String)
    (hs : s ∉ symbols) (p : ℚ) (src : String) (tsOpt : Option ℕ) (nowMs : ℕ) :
    updateTick c s p src tsOpt nowMs = Except.error "TypeError" := by
  simp only [updateTick]
  exact updateTFs_head_error _ s "1m" ["5m", "15m", "1h"] p _ "TypeError"
    (updateOHLC_unknown _ s "1m" p _ (hwf.curNone s hs))

lemma getBars_unknown (c : OHLCCache) (hwf : WF c) (s tf : String)
    (h : s ∉ symbols ∨ tf ∉ timeframes) (n : ℕ) : getBars c s tf n = [] := by
  rcases h with hs | htf
  · simp [getBars, hwf.cacheNone s hs]
  · cases hca : c.cache s with
    | none => simp [getBars, hca]
    | some m => simp [getBars, hca, hwf.cacheTFNone s m hca tf htf]

lemma loadHistoricalBars_unknown (c : OHLCCache) (hwf : WF c) (s tf : String)
    (h : s ∉ symbols ∨ tf ∉ timeframes) (bars : List Candle) (nowMs : ℕ) :
    loadHistoricalBars c s tf bars nowMs = c := by
  rcases h with hs | htf
  · simp [loadHistoricalBars, hwf.cacheNone s hs]
  · cases hca : c.cache s with
    | none => simp [loadHistoricalBars, hca]
    | some m => simp [loadHistoricalBars, hca, hwf.cacheTFNone s m hca tf htf]

lemma staleAux_ok (c : OHLCCache) (nowMs maxAgeMs : ℕ) (l : List String)
    (hl : ∀ s ∈ l, ∃ t, c.lastTick s = some t) :
    exOk (staleAux c nowMs maxAgeMs l) = true := by
  induction l with
  | nil => simp [staleAux, exOk]
  | cons s rest ih =>
    obtain ⟨t, ht⟩ := hl s (by simp)
    have hrest := ih (fun s2 hs2 => hl s2 (by simp [hs2]))
    simp only [staleAux, ht]
    cases hr : staleAux c nowMs maxAgeMs rest with
    | error e => rw [hr] at hrest; simp [exOk] at hrest
    | ok tail => simp [exOk]

lemma getStaleSymbols_ok (c : OHLCCache) (hwf : WF c) (nowMs maxAgeMs : ℕ) :
    exOk (getStaleSymbols c nowMs maxAgeMs) = true :=
  staleAux_ok c nowMs maxAgeMs symbols (fun s hs => hwf.lastSome s hs)

lemma barCounts_ok (m : String → Option (List Candle)) (tfs : List String)
    (h : ∀ tf ∈ tfs, ∃ bars, m tf = some bars) :
    ∃ cnts, barCounts m tfs = Except.ok cnts := by
  induction tfs with
  | nil => exact ⟨[], rfl⟩
  | cons tf rest ih =>
    obtain ⟨bars, hb⟩ := h tf (by simp)
    obtain ⟨cnts, hc⟩ := ih (fun tf2 htf2 => h tf2 (by simp [htf2]))
    exact ⟨(tf, bars.length) :: cnts, by simp [barCounts, hb, hc]⟩

lemma metricsAux_ok (c : OHLCCache) (l : List String)
    (hl : ∀ s ∈ l, (∃ t, c.lastTick s = some t) ∧
      ∃ m, c.cache s = some m ∧ ∀ tf, tf ∈ timeframes → ∃ bars, m tf = some bars) :
    ∃ per, metricsAux c l = Except.ok per := by
  induction l with
  | nil => exact ⟨[], rfl⟩
  | cons s rest ih =>
    obtain ⟨⟨t, ht⟩, m, hm, hall⟩ := hl s (by simp)
    obtain ⟨cnts, hc⟩ := barCounts_ok m timeframes (fun tf htf => hall tf htf)
    obtain ⟨per, hper⟩ := ih (fun s2 hs2 => hl s2 (by simp [hs2]))
    exact ⟨(s, ⟨t.price, t.time, t.source, c.errors s, cnts⟩) :: per,
      by simp [metricsAux, ht, hm, hc, hper]⟩

lemma getMetrics_ok (c : OHLCCache) (hwf : WF c) (nowMs : ℕ) :
    exOk (getMetrics c nowMs) = true := by
  obtain ⟨per, hper⟩ := metricsAux_ok c symbols
    (fun s hs => ⟨hwf.lastSome s hs, hwf.cacheSome s hs⟩)
  simp [getMetrics, hper, exOk]

lemma maxBars_updateTFs (tfs : List String) (s : String) (p : ℚ) (ts : ℕ) :
    ∀ c c2 : OHLCCache, updateTFs c s tfs p ts = Except.ok c2 → c2.maxBars = c.maxBars := by
  induction tfs with
  | nil =>
    intro c c2 h
    simp only [updateTFs, Except.ok.injEq] at h
    subst h
    rfl
  | cons tf rest ih =>
    intro c c2 h
    simp only [updateTFs] at h
    cases hstep : updateOHLC c s tf p ts with
    | error e => rw [hstep] at h; exact absurd h (by simp)
    | ok cmid =>
      rw [hstep] at h
      rw [ih cmid c2 h]
      exact (updateOHLC_cases c cmid s tf p ts hstep).1

lemma maxBars_updateTick (c c2 : OHLCCache) (s : String) (p : ℚ) (src : String)
    (tsOpt : Option ℕ) (nowMs : ℕ)
    (h : updateTick c s p src tsOpt nowMs = Except.ok c2) : c2.maxBars = c.maxBars := by
  simp only [updateTick] at h
  have h2 := maxBars_updateTFs _ _ _ _ _ _ h
  rw [h2]

lemma maxBars_loadHistoricalBars (c : OHLCCache) (s tf : String) (bars : List Candle)
    (nowMs : ℕ) : (loadHistoricalBars c s tf bars nowMs).maxBars = c.maxBars := by
  simp only [loadHistoricalBars]
  cases hca : c.cache s with
  | none => simp only [hca]
  | some m =>
    simp only [hca]
    cases hmt : m tf with
    | none => simp only [hmt]
    | some old =>
      simp only [hmt]
      cases hlast : bars.getLast? <;> simp only [hlast]

/-- The validation guard of handleTickerUpdate holds exactly when the
extracted value is neither NaN nor the number 0. -/
lemma tickerGuard_iff (p : JSNum) :
    (jsTruthy p && !(jsIsNaN p)) = true ↔ p ≠ JSNum.nan ∧ p ≠ JSNum.num 0 := by
  cases p <;> simp [jsTruthy, jsIsNaN]

lemma getBars_of_stored (c : OHLCCache) (s tf : String) (l : List Candle) (n : ℕ)
    (h : storedBars c s tf = some l) : getBars c s tf n = jsSliceLast l n := by
  simp only [getBars, storedBars] at h ⊢
  cases hca : c.cache s with
  | none => simp [hca] at h
  | some m =>
    simp only [hca] at h ⊢
    cases hmt : m tf with
    | none => simp [hmt] at h
    | some stored =>
      simp only [hmt] at h ⊢
      rw [Option.some.inj h]

lemma loadHistoricalBars_stored (c : OHLCCache) (s tf : String) (bars : List Candle)
    (nowMs : ℕ) (m : String → Option (List Candle)) (old : List Candle)
    (hca : c.cache s = some m) (hmt : m tf = some old) :
    storedBars (loadHistoricalBars c s tf bars nowMs) s tf
      = some (jsSliceLast bars c.maxBars) := by
  simp only [loadHistoricalBars, hca, hmt]
  cases hlast : bars.getLast? <;> simp [storedBars, upd]

/-! ### The claims -/

/-- C3: the specification formula min(base * 2^(n-1), 30000) does not
describe every feed: on the KuCoin DataFeedManager path, before attempt 4
the code schedules 5000 * 2^3 = 40000 ms while the formula gives 30000 ms. -/
theorem claim_C3_counterexample :
    (kucoinScheduleReconnect 3).1 = some 40000 ∧
    specBackoffDelay 5000 4 = 30000 ∧ (40000 : ℕ) ≠ 30000 := by
  refine ⟨?_, ?_, by decide⟩ <;> decide

/-- C3 (amended): for consecutive failures with counter a below the cap of
10 attempts, BinanceWS schedules exactly min(1000 * 2^(n-1), 30000) for
attempt n = a + 1, while the KuCoin DataFeedManager schedules
5000 * 2^min(n-1, 5) with no 30000 cap; at the cap both feeds stop
scheduling and the counter freezes. -/
theorem claim_C3_reconnect_backoff (a : ℕ) :
    (a < 10 →
      binanceScheduleReconnect a = (some (specBackoffDelay 1000 (a + 1)), a + 1) ∧
      kucoinScheduleReconnect a = (some (5000 * 2 ^ (min a 5)), a + 1)) ∧
    (10 ≤ a →
      binanceScheduleReconnect a = (none, a) ∧
      kucoinScheduleReconnect a = (none, a)) := by
  constructor
  · intro h
    constructor
    · simp [binanceScheduleReconnect, specBackoffDelay, Nat.not_le.mpr h]
    · simp [kucoinScheduleReconnect, Nat.not_le.mpr h]
  · intro h
    constructor
    · simp [binanceScheduleReconnect, h]
    · simp [kucoinScheduleReconnect, h]

/-- C3 witness: before attempt 4 (counter 3) BinanceWS waits 8000 ms and
the KuCoin feed waits 40000 ms. -/
theorem claim_C3_witness :
    binanceScheduleReconnect 3 = (some (specBackoffDelay 1000 4), 4) ∧
    kucoinScheduleReconnect 3 = (some (5000 * 2 ^ (min 3 5)), 4) :=
  (claim_C3_reconnect_backoff 3).1 (by decide)

/-- C6: the guard `price && !isNaN(price)` does not require the price to
be finite and positive: a best-ask parsing to -1 is truthy and non-NaN, so
updateTick is called with the negative price. -/
theorem claim_C6_counterexample :
    handleTickerUpdate "BTC-USDT" ⟨some (JSNum.num (-1)), none, none⟩
      = some ("btc", JSNum.num (-1)) ∧ ¬(0 < (-1 : ℚ)) := by
  constructor
  · simp only [handleTickerUpdate, extractTickerPrice, resolveKucoinSymbol, kucoinSymbolMap]
    norm_num [jsTruthy, jsIsNaN, List.find?]
  · norm_num

/-- C6 (amended): the price is extracted by the ordered fallback chain
best-ask, else last-trade price, else best-bid (NaN when all are absent);
a message whose subject is not a known KuCoin symbol is dropped; and
updateTick is called exactly when the symbol resolves and the extracted
value is neither NaN nor zero - negative or infinite values pass the
guard. -/
theorem claim_C6_ticker_validation :
    (∀ d : TickerData, ∀ v : JSNum,
      (d.bestAsk = some v → extractTickerPrice d = v) ∧
      (d.bestAsk = none → d.price = some v → extractTickerPrice d = v) ∧
      (d.bestAsk = none → d.price = none → d.bestBid = some v → extractTickerPrice d = v)) ∧
    (∀ d : TickerData, d.bestAsk = none → d.price = none → d.bestBid = none →
      extractTickerPrice d = JSNum.nan) ∧
    (∀ (subject : String) (d : TickerData),
      resolveKucoinSymbol subject = none → handleTickerUpdate subject d = none) ∧
    (∀ (subject : String) (d : TickerData) (sym : String) (p : JSNum),
      handleTickerUpdate subject d = some (sym, p) ↔
        resolveKucoinSymbol subject = some sym ∧ p = extractTickerPrice d ∧
        p ≠ JSNum.nan ∧ p ≠ JSNum.num 0) := by
  refine ⟨?_, ?_, ?_, ?_⟩
  · intro d v
    refine ⟨?_, ?_, ?_⟩
    · intro h1
      simp [extractTickerPrice, h1]
    · intro h1 h2
      simp [extractTickerPrice, h1, h2]
    · intro h1 h2 h3
      simp [extractTickerPrice, h1, h2, h3]
  · intro d h1 h2 h3
    simp [extractTickerPrice, h1, h2, h3]
  · intro subject d h
    simp [handleTickerUpdate, h]
  · intro subject d sym p
    simp only [handleTickerUpdate]
    cases hres : resolveKucoinSymbol subject with
    | none => simp
    | some sym2 =>
      by_cases hguard : (jsTruthy (extractTickerPrice d) && !(jsIsNaN (extractTickerPrice d))) = true
      · obtain ⟨hnan, hzero⟩ := (tickerGuard_iff (extractTickerPrice d)).mp hguard
        simp only [hguard, if_true, Option.some.injEq, Prod.mk.injEq]
        constructor
        · rintro ⟨rfl, rfl⟩
          exact ⟨rfl, rfl, hnan, hzero⟩
        · rintro ⟨hsym, rfl, -, -⟩
          exact ⟨hsym, rfl⟩
      · rw [Bool.not_eq_true] at hguard
        simp only [hguard, Bool.false_eq_true, if_false]
        constructor
        · intro hcontra
          exact Option.noConfusion hcontra
        · rintro ⟨hsym, rfl, hnan, hzero⟩
          have hg := (tickerGuard_iff (extractTickerPrice d)).mpr ⟨hnan, hzero⟩
          rw [hguard] at hg
          exact absurd hg (by decide)
      
/-- C6 witness: a ticker with no best-ask falls back to the last-trade
price and passes the guard. -/
theorem claim_C6_witness :
    handleTickerUpdate "ETH-USDT" ⟨none, some (JSNum.num 5), none⟩
      = some ("eth", JSNum.num 5) :=
  (claim_C6_ticker_validation.2.2.2 "ETH-USDT" ⟨none, some (JSNum.num 5), none⟩
      "eth" (JSNum.num 5)).mpr
    ⟨by decide, rfl, by simp, by norm_num⟩

/-- C2: the voting decision rule.  With zero total the result is HOLD with
confidence 0; otherwise BUY exactly when the buy share strictly exceeds 40
percent and strictly beats the sell share, SELL symmetrically, HOLD
otherwise; confidence is the rounded winning share capped at 100 and 0 for
HOLD.  A buy share of exactly 40 percent (votes 2, 1, 2) yields HOLD. -/
theorem claim_C2_vote_decision (v : Votes) :
    (v.BUY + v.SELL + v.HOLD = 0 → determineSignal v = (Signal.HOLD, 0)) ∧
    (v.BUY + v.SELL + v.HOLD ≠ 0 →
      ((determineSignal v).1 = Signal.BUY ↔
        40 < v.BUY / (v.BUY + v.SELL + v.HOLD) * 100 ∧
        v.SELL / (v.BUY + v.SELL + v.HOLD) * 100 < v.BUY / (v.BUY + v.SELL + v.HOLD) * 100) ∧
      ((determineSignal v).1 = Signal.SELL ↔
        40 < v.SELL / (v.BUY + v.SELL + v.HOLD) * 100 ∧
        v.BUY / (v.BUY + v.SELL + v.HOLD) * 100 < v.SELL / (v.BUY + v.SELL + v.HOLD) * 100) ∧
      ((determineSignal v).1 = Signal.HOLD ↔
        ¬(40 < v.BUY / (v.BUY + v.SELL + v.HOLD) * 100 ∧
          v.SELL / (v.BUY + v.SELL + v.HOLD) * 100 < v.BUY / (v.BUY + v.SELL + v.HOLD) * 100) ∧
        ¬(40 < v.SELL / (v.BUY + v.SELL + v.HOLD) * 100 ∧
          v.BUY / (v.BUY + v.SELL + v.HOLD) * 100 < v.SELL / (v.BUY + v.SELL + v.HOLD) * 100)) ∧
      ((determineSignal v).1 = Signal.BUY →
        (determineSignal v).2 = min (round (v.BUY / (v.BUY + v.SELL + v.HOLD) * 100)) 100) ∧
      ((determineSignal v).1 = Signal.SELL →
        (determineSignal v).2 = min (round (v.SELL / (v.BUY + v.SELL + v.HOLD) * 100)) 100) ∧
      ((determineSignal v).1 = Signal.HOLD → (determineSignal v).2 = 0)) ∧
    determineSignal ⟨2, 1, 2⟩ = (Signal.HOLD, 0) ∧
    (2 : ℚ) / (2 + 1 + 2) * 100 = 40 := by
  refine ⟨?_, ?_, ?_, by norm_num⟩
  · intro h
    simp [determineSignal, h]
  · intro h
    have hds : determineSignal v =
        (if 40 < v.BUY / (v.BUY + v.SELL + v.HOLD) * 100 ∧
            v.SELL / (v.BUY + v.SELL + v.HOLD) * 100 < v.BUY / (v.BUY + v.SELL + v.HOLD) * 100
          then (Signal.BUY, min (round (v.BUY / (v.BUY + v.SELL + v.HOLD) * 100)) 100)
          else if 40 < v.SELL / (v.BUY + v.SELL + v.HOLD) * 100 ∧
              v.BUY / (v.BUY + v.SELL + v.HOLD) * 100 < v.SELL / (v.BUY + v.SELL + v.HOLD) * 100
            then (Signal.SELL, min (round (v.SELL / (v.BUY + v.SELL + v.HOLD) * 100)) 100)
            else (Signal.HOLD, 0)) := by
      simp [determineSignal, h]
    rw [hds]
    by_cases hb : 40 < v.BUY / (v.BUY + v.SELL + v.HOLD) * 100 ∧
        v.SELL / (v.BUY + v.SELL + v.HOLD) * 100 < v.BUY / (v.BUY + v.SELL + v.HOLD) * 100
    · have hnots : ¬(40 < v.SELL / (v.BUY + v.SELL + v.HOLD) * 100 ∧
          v.BUY / (v.BUY + v.SELL + v.HOLD) * 100 < v.SELL / (v.BUY + v.SELL + v.HOLD) * 100) := by
        rintro ⟨-, h2⟩
        exact absurd hb.2 (not_lt.mpr (le_of_lt h2))
      rw [if_pos hb]
      exact ⟨⟨fun _ => hb, fun _ => rfl⟩, iff_of_false (by simp) hnots,
        iff_of_false (by simp) (fun hc => hc.1 hb), fun _ => rfl,
        fun hf => absurd hf (by simp), fun hf => absurd hf (by simp)⟩
    · by_cases hs : 40 < v.SELL / (v.BUY + v.SELL + v.HOLD) * 100 ∧
          v.BUY / (v.BUY + v.SELL + v.HOLD) * 100 < v.SELL / (v.BUY + v.SELL + v.HOLD) * 100
      · rw [if_neg hb, if_pos hs]
        exact ⟨iff_of_false (by simp) hb, ⟨fun _ => hs, fun _ => rfl⟩,
          iff_of_false (by simp) (fun hc => hc.2 hs), fun hf => absurd hf (by simp),
          fun _ => rfl, fun hf => absurd hf (by simp)⟩
      · rw [if_neg hb, if_neg hs]
        exact ⟨iff_of_false (by simp) hb, iff_of_false (by simp) hs,
          iff_of_true rfl ⟨hb, hs⟩, fun hf => absurd hf (by simp),
          fun hf => absurd hf (by simp), fun _ => rfl⟩
  · simp [determineSignal]
    norm_num

/-- C2 witness: votes of 41, 0 and 59 give a 41 percent buy share and the
BUY signal. -/
theorem claim_C2_witness :
    ((41 : ℚ) + 0 + 59 ≠ 0) ∧ (determineSignal ⟨41, 0, 59⟩).1 = Signal.BUY := by
  refine ⟨by norm_num, ?_⟩
  have h := ((claim_C2_vote_decision ⟨41, 0, 59⟩).2.1 (by norm_num)).1
  exact h.mpr (by norm_num)

/-- C7: with atr exactly at the 0.1 percent threshold the ATR-based branch
is taken (the comparison is greater-or-equal); for BUY at the threshold
both the stop and the target are closer than 0.5 percent and get replaced
by the fixed fallback legs 0.98 * price and 1.05 * price; and for every
atr (either branch) a BUY result satisfies stopLoss < price < takeProfit. -/
theorem claim_C7_sltp_branches (price atr : ℚ) (plan : Plan) (h : 0 < price) :
    useATRCheck price (price * (1 / 1000)) = true ∧
    calculateSLTP price (price * (1 / 1000)) Signal.BUY plan
      = some (price * (98 / 100), price * (105 / 100)) ∧
    (∀ sl tp, calculateSLTP price atr Signal.BUY plan = some (sl, tp) →
      sl < price ∧ price < tp) := by
  have hminATR : (0 : ℚ) < price * (1 / 1000) := by positivity
  have hUse : useATRCheck price (price * (1 / 1000)) = true := by
    simp only [useATRCheck, Bool.and_eq_true, decide_eq_true_eq]
    exact ⟨ne_of_gt hminATR, le_refl _⟩
  refine ⟨hUse, ?_, ?_⟩
  · cases plan <;>
    · simp only [calculateSLTP, atrMultipliers, percentageFallback, hUse, if_true]
      rw [if_pos (by rw [abs_sub_comm, abs_of_pos (by nlinarith)]; nlinarith),
        if_pos (by rw [abs_of_pos (by nlinarith)]; nlinarith)]
  · intro sl tp heq
    cases hU : useATRCheck price atr with
    | true =>
      have hatr : price * (1 / 1000) ≤ atr := by
        have h2 := hU
        simp only [useATRCheck, Bool.and_eq_true, decide_eq_true_eq] at h2
        exact h2.2
      have hatr0 : 0 < atr := lt_of_lt_of_le hminATR hatr
      cases plan <;>
      · simp only [calculateSLTP, atrMultipliers, percentageFallback, hU, if_true] at heq
        rw [Option.some.injEq, Prod.mk.injEq] at heq
        obtain ⟨hsl, htp⟩ := heq
        subst hsl
        subst htp
        refine ⟨?_, ?_⟩ <;> split_ifs <;> nlinarith [hatr0, h]
    | false =>
      cases plan <;>
      · simp only [calculateSLTP, atrMultipliers, percentageFallback, hU,
          Bool.false_eq_true, if_false] at heq
        rw [Option.some.injEq, Prod.mk.injEq] at heq
        obtain ⟨hsl, htp⟩ := heq
        subst hsl
        subst htp
        refine ⟨?_, ?_⟩ <;> split_ifs <;> nlinarith [h]

/-- C7 witness: at price 100 the threshold atr is 0.1 and the BUY result
for the mid plan is the fallback pair (98, 105). -/
theorem claim_C7_witness :
    ((0 : ℚ) < 100) ∧ calculateSLTP 100 (100 * (1 / 1000)) Signal.BUY Plan.mid
      = some (100 * (98 / 100), 100 * (105 / 100)) :=
  ⟨by norm_num, (claim_C7_sltp_branches 100 1 Plan.mid (by norm_num)).2.1⟩

/-- C1: in the specification example the ticks 100, 101, 99, 102 all land
in one bucket, so the closed candle has high max(100, 101, 99, 102) = 102,
not 101 as the specification states. -/
theorem claim_C1_counterexample :
    (getBars exampleRun "btc" "1m" 10).map Candle.high = [102] ∧ ((102 : ℚ) ≠ 101) := by
  constructor
  · simp [exampleRun, stepTick, updateTick, updateTFs, timeframes, updateOHLC, bucketStart,
      getTimeframeMs, mkOHLCCache, upd, getBars, jsSliceLast, pushCapped, addCompletedCandle,
      newCandle, symbols]
    norm_num
  · norm_num

/-- C1 (amended): updateOHLC buckets every tick at
floor(timestamp / tfMs) * tfMs, which is stable across a bucket; a tick in
the current bucket updates the candle in place (high absorbs the price, low
absorbs the price, close becomes the price), any other tick closes the
current candle into history and opens a fresh one; and in the example run
the closed candle is open 100, high 102, low 99, close 102 while the new
candle opens at 105. -/
theorem claim_C1_bucketing :
    (∀ tf ts, bucketStart tf ts = ts / getTimeframeMs tf * getTimeframeMs tf ∧
      bucketStart tf ts ≤ ts ∧ ts < bucketStart tf ts + getTimeframeMs tf) ∧
    (∀ tf t u, t / getTimeframeMs tf = u / getTimeframeMs tf →
      bucketStart tf t = bucketStart tf u) ∧
    (∀ (c : OHLCCache) (s tf : String) (p : ℚ) (ts : ℕ) curMap cur,
      c.currentCandles s = some curMap → curMap tf = some cur →
      cur.time = bucketStart tf ts →
      updateOHLC c s tf p ts = Except.ok { c with
        currentCandles := upd c.currentCandles s (some (upd curMap tf
          (some { cur with high := max cur.high p, low := min cur.low p, close := p }))) }) ∧
    (∀ (c : OHLCCache) (s tf : String) (p : ℚ) (ts : ℕ) curMap cur m bars,
      c.currentCandles s = some curMap → curMap tf = some cur →
      cur.time ≠ bucketStart tf ts → c.cache s = some m → m tf = some bars →
      updateOHLC c s tf p ts = Except.ok { c with
        cache := upd c.cache s (some (upd m tf (some (pushCapped c.maxBars bars cur)))),
        currentCandles := upd c.currentCandles s (some (upd curMap tf
          (some (newCandle (bucketStart tf ts) p)))) }) ∧
    getBars exampleRun "btc" "1m" 10
      = [{ time := 0, open_ := 100, high := 102, low := 99, close := 102, volume := 0 }] ∧
    currentCandle exampleRun "btc" "1m" = some (newCandle 60000 105) := by
  refine ⟨fun tf ts => ⟨rfl, bucketStart_le tf ts, lt_bucketStart_add tf ts⟩,
    fun tf t u h => bucketStart_stable tf t u h,
    fun c s tf p ts curMap cur h1 h2 h3 => updateOHLC_in_place c s tf p ts curMap cur h1 h2 h3,
    fun c s tf p ts curMap cur m bars h1 h2 h3 h4 h5 =>
      updateOHLC_rollover c s tf p ts curMap cur m bars h1 h2 h3 h4 h5,
    ?_, ?_⟩ <;>
  · simp [exampleRun, stepTick, updateTick, updateTFs, timeframes, updateOHLC, bucketStart,
      getTimeframeMs, mkOHLCCache, upd, getBars, currentCandle, jsSliceLast, pushCapped,
      addCompletedCandle, newCandle, symbols] <;> norm_num

/-- C1 witness: in a state whose current 1m candle starts at 60000, a tick
at 61000 with price 105 is an in-place update. -/
theorem claim_C1_witness :
    updateOHLC demoCache "btc" "1m" 105 61000 = Except.ok { demoCache with
      currentCandles := upd demoCache.currentCandles "btc"
        (some (upd (fun tf => if tf = "1m" then some (newCandle 60000 100) else none) "1m"
          (some { newCandle 60000 100 with
            high := max (newCandle 60000 100).high 105,
            low := min (newCandle 60000 100).low 105, close := 105 }))) } :=
  claim_C1_bucketing.2.2.1 demoCache "btc" "1m" 105 61000
    (fun tf => if tf = "1m" then some (newCandle 60000 100) else none) (newCandle 60000 100)
    (by simp [demoCache]) (by simp) (by decide)

/-- C5: a stale tick whose timestamp falls in an earlier bucket does not
update the current candle in place: in staleRun the tick at 59000 closes
the candle that started at 60000 into history and opens a new current
candle at bucket start 0. -/
theorem claim_C5_counterexample :
    currentCandle staleRun "btc" "1m" = some (newCandle 0 99) ∧
    getBars staleRun "btc" "1m" 10 = [newCandle 60000 100] ∧
    (newCandle 0 99).time ≠ 60000 := by
  refine ⟨?_, ?_, by decide⟩ <;>
  · simp [staleRun, stepTick, updateTick, updateTFs, timeframes, updateOHLC, bucketStart,
      getTimeframeMs, mkOHLCCache, upd, getBars, currentCandle, jsSliceLast, pushCapped,
      addCompletedCandle, newCandle, symbols]

/-- C5 (amended): a stale tick still lands in the current candle only when
its bucket start equals the candle start: such a tick updates
close/high/low in place and leaves every stored history untouched.  A
stale tick from an earlier bucket instead closes the current candle and
opens a new one at the earlier bucket start (the staleRun conjuncts).  In
all cases updateTick never rewrites or reorders completed candles: each
stored history only loses oldest entries and gains appended ones. -/
theorem claim_C5_stale_tick_behaviour :
    (∀ (c : OHLCCache) (s tf : String) (p : ℚ) (ts : ℕ) curMap cur,
      c.currentCandles s = some curMap → curMap tf = some cur →
      cur.time = bucketStart tf ts →
      updateOHLC c s tf p ts = Except.ok { c with
        currentCandles := upd c.currentCandles s (some (upd curMap tf
          (some { cur with high := max cur.high p, low := min cur.low p, close := p }))) }) ∧
    (∀ (c c2 : OHLCCache) (s : String) (p : ℚ) (src : String) (tsOpt : Option ℕ)
        (nowMs : ℕ) (s2 tf2 : String) (old : List Candle),
      updateTick c s p src tsOpt nowMs = Except.ok c2 →
      storedBars c s2 tf2 = some old →
      ∃ new, storedBars c2 s2 tf2 = some new ∧ histOrderExtends old new) ∧
    currentCandle staleRun "btc" "1m" = some (newCandle 0 99) ∧
    storedBars staleRun "btc" "1m" = some [newCandle 60000 100] := by
  refine ⟨fun c s tf p ts curMap cur h1 h2 h3 =>
      updateOHLC_in_place c s tf p ts curMap cur h1 h2 h3,
    fun c c2 s p src tsOpt nowMs s2 tf2 old h hold =>
      storedBars_updateTick c c2 s p src tsOpt nowMs h s2 tf2 old hold,
    ?_, ?_⟩ <;>
  · simp [staleRun, stepTick, updateTick, updateTFs, timeframes, updateOHLC, bucketStart,
      getTimeframeMs, mkOHLCCache, upd, storedBars, currentCandle, jsSliceLast, pushCapped,
      addCompletedCandle, newCandle, symbols]

/-- C5 witness: a tick into a state with one completed bar extends the
stored 1m history without rewriting it. -/
theorem claim_C5_witness :
    ∃ new, storedBars (stepTick demoHist "btc" 99 61000) "btc" "1m" = some new ∧
      histOrderExtends [newCandle 0 100] new := by
  have hok : updateTick demoHist "btc" 99 "ws" none 61000
      = Except.ok (stepTick demoHist "btc" 99 61000) := by
    simp [stepTick, updateTick, updateTFs, timeframes, updateOHLC, bucketStart,
      getTimeframeMs, demoHist, upd, jsSliceLast, pushCapped, addCompletedCandle, newCandle]
  exact claim_C5_stale_tick_behaviour.2.1 demoHist (stepTick demoHist "btc" 99 61000)
    "btc" 99 "ws" none 61000 "btc" "1m" [newCandle 0 100] hok
    (by simp [storedBars, demoHist, timeframes])

/-- C4: updateTick is not total on unknown symbols: on the freshly
constructed cache it raises a TypeError for the symbol foo, because
currentCandles has no entry for it. -/
theorem claim_C4_counterexample :
    exOk (updateTick (mkOHLCCache 500) "foo" 100 "ws" none 1000) = false := by
  rw [updateTick_unknown_symbol (mkOHLCCache 500) (wf_mk 500) "foo" (by decide) 100 "ws" none 1000]
  rfl

/-- C4 (amended): on well-formed states - the constructor state is
well-formed and every operation preserves well-formedness - all public
operations except updateTick are total with empty or default results on
unknown keys: getBars returns [], loadHistoricalBars is a no-op,
getLatestPrice starts as undefined for unknown symbols, recordError never
fails, and getStaleSymbols and getMetrics always return a value; updateTick
alone throws a TypeError for an unknown symbol. -/
theorem claim_C4_totality :
    (∀ mB, WF (mkOHLCCache mB)) ∧
    (∀ (c c2 : OHLCCache) (s : String) (p : ℚ) (src : String) (tsOpt : Option ℕ)
      (nowMs : ℕ), WF c → updateTick c s p src tsOpt nowMs = Except.ok c2 → WF c2) ∧
    (∀ (c : OHLCCache) (s tf : String) (bars : List Candle) (nowMs : ℕ),
      WF c → WF (loadHistoricalBars c s tf bars nowMs)) ∧
    (∀ (c : OHLCCache) (s : String), WF c → WF (recordError c s)) ∧
    (∀ (c : OHLCCache) (s : String) (p : ℚ) (src : String) (tsOpt : Option ℕ)
      (nowMs : ℕ), WF c → s ∉ symbols →
      updateTick c s p src tsOpt nowMs = Except.error "TypeError") ∧
    (∀ (c : OHLCCache) (s tf : String) (n : ℕ), WF c →
      s ∉ symbols ∨ tf ∉ timeframes → getBars c s tf n = []) ∧
    (∀ (c : OHLCCache) (s tf : String) (bars : List Candle) (nowMs : ℕ), WF c →
      s ∉ symbols ∨ tf ∉ timeframes → loadHistoricalBars c s tf bars nowMs = c) ∧
    (∀ (mB : ℕ) (s : String), s ∉ symbols → getLatestPrice (mkOHLCCache mB) s = none) ∧
    (∀ (c : OHLCCache) (nowMs maxAgeMs : ℕ), WF c →
      exOk (getStaleSymbols c nowMs maxAgeMs) = true) ∧
    (∀ (c : OHLCCache) (nowMs : ℕ), WF c → exOk (getMetrics c nowMs) = true) := by
  refine ⟨wf_mk,
    fun c c2 s p src tsOpt nowMs hwf h => wf_updateTick c c2 s p src tsOpt nowMs h hwf,
    fun c s tf bars nowMs hwf => wf_loadHistoricalBars c s tf bars nowMs hwf,
    fun c s hwf => wf_recordError c s hwf,
    fun c s p src tsOpt nowMs hwf hs => updateTick_unknown_symbol c hwf s hs p src tsOpt nowMs,
    fun c s tf n hwf hu => getBars_unknown c hwf s tf hu n,
    fun c s tf bars nowMs hwf hu => loadHistoricalBars_unknown c hwf s tf hu bars nowMs,
    fun mB s hs => ?_,
    fun c nowMs maxAgeMs hwf => getStaleSymbols_ok c hwf nowMs maxAgeMs,
    fun c nowMs hwf => getMetrics_ok c hwf nowMs⟩
  simp [getLatestPrice, mkOHLCCache, hs]

/-- C4 witness: on the fresh cache every unknown-key read defaults and the
monitoring operations return values. -/
theorem claim_C4_witness :
    getBars (mkOHLCCache 500) "foo" "1m" 10 = [] ∧
    exOk (getStaleSymbols (mkOHLCCache 500) 0 120000) = true ∧
    exOk (getMetrics (mkOHLCCache 500) 0) = true :=
  ⟨claim_C4_totality.2.2.2.2.2.1 (mkOHLCCache 500) "foo" "1m" 10
      (claim_C4_totality.1 500) (Or.inl (by decide)),
    claim_C4_totality.2.2.2.2.2.2.2.2.1 (mkOHLCCache 500) 0 120000 (claim_C4_totality.1 500),
    claim_C4_totality.2.2.2.2.2.2.2.2.2 (mkOHLCCache 500) 0 (claim_C4_totality.1 500)⟩

/-- C8: getBars with count 0 does not return at most min(0, maxBars) = 0
candles: slice(-0) returns the whole stored array, here 1 candle. -/
theorem claim_C8_counterexample :
    (getBars loadedOne "btc" "1m" 0).length = 1 ∧
    min 0 (mkOHLCCache 500).maxBars = 0 ∧ (1 : ℕ) ≠ 0 := by
  refine ⟨?_, ?_, by decide⟩
  · simp [loadedOne, loadHistoricalBars, mkOHLCCache, getBars, jsSliceLast, upd,
      symbols, timeframes, newCandle]
  · simp [mkOHLCCache]

/-- C8 (amended): under the capacity invariant - established by the
constructor and preserved by updateTick and by loadHistoricalBars for a
positive cap - getBars with a count of at least 1 returns at most
min(count, maxBars) candles and always a suffix of the stored history in
stored order; a push at the cap drops exactly the oldest candle.  A count
of 0 instead returns the entire stored history. -/
theorem claim_C8_getBars_cap :
    (∀ mB, CapInv (mkOHLCCache mB)) ∧
    (∀ (c c2 : OHLCCache) (s : String) (p : ℚ) (src : String) (tsOpt : Option ℕ)
      (nowMs : ℕ), CapInv c → updateTick c s p src tsOpt nowMs = Except.ok c2 →
      CapInv c2 ∧ c2.maxBars = c.maxBars) ∧
    (∀ (c : OHLCCache) (s tf : String) (bars : List Candle) (nowMs : ℕ),
      0 < c.maxBars → CapInv c → CapInv (loadHistoricalBars c s tf bars nowMs) ∧
      (loadHistoricalBars c s tf bars nowMs).maxBars = c.maxBars) ∧
    (∀ (c : OHLCCache) (s tf : String) (n : ℕ), 1 ≤ n → CapInv c →
      (getBars c s tf n).length ≤ min n c.maxBars) ∧
    (∀ (c : OHLCCache) (s tf : String) (n : ℕ) (bars : List Candle),
      storedBars c s tf = some bars → getBars c s tf n <:+ bars) ∧
    (∀ (mB : ℕ) (bars : List Candle) (cd : Candle), 0 < mB → bars.length = mB →
      pushCapped mB bars cd = bars.tail ++ [cd]) ∧
    (∀ (c : OHLCCache) (s tf : String) (bars : List Candle),
      storedBars c s tf = some bars → getBars c s tf 0 = bars) := by
  refine ⟨capInv_mk,
    fun c c2 s p src tsOpt nowMs hv h =>
      ⟨capInv_updateTick c c2 s p src tsOpt nowMs h hv, maxBars_updateTick c c2 s p src tsOpt nowMs h⟩,
    fun c s tf bars nowMs hpos hv =>
      ⟨capInv_loadHistoricalBars c s tf bars nowMs hpos hv, maxBars_loadHistoricalBars c s tf bars nowMs⟩,
    fun c s tf n hn hv => capInv_getBars c s tf n hn hv,
    fun c s tf n bars h => getBars_suffix c s tf n bars h,
    fun mB bars cd hpos hlen => pushCapped_at_cap mB bars cd hpos hlen,
    fun c s tf bars h => ?_⟩
  rw [getBars_of_stored c s tf bars 0 h]
  simp [jsSliceLast]

/-- C8 witness: after loading one bar, getBars with count 1 respects the
cap bound. -/
theorem claim_C8_witness :
    (getBars loadedOne "btc" "1m" 1).length ≤ min 1 loadedOne.maxBars :=
  claim_C8_getBars_cap.2.2.2.1 loadedOne "btc" "1m" 1 (by decide)
    ((claim_C8_getBars_cap.2.2.1 (mkOHLCCache 500) "btc" "1m" [newCandle 60000 7] 0
      (by decide) (claim_C8_getBars_cap.1 500)).1)

/-- C9: loadHistoricalBars replaces the stored sequence for a known key by
the input truncated to the most recent maxBars bars, regardless of the
previous contents, and getBars with the input length returns exactly that
truncation (hence the same closes); for a positive cap the truncation is a
suffix of the input of length min(maxBars, length). -/
theorem claim_C9_roundtrip (c : OHLCCache) (s tf : String) (bars : List Candle)
    (nowMs : ℕ) (m : String → Option (List Candle)) (old : List Candle)
    (hca : c.cache s = some m) (hmt : m tf = some old) :
    storedBars (loadHistoricalBars c s tf bars nowMs) s tf
      = some (jsSliceLast bars c.maxBars) ∧
    getBars (loadHistoricalBars c s tf bars nowMs) s tf bars.length
      = jsSliceLast bars c.maxBars ∧
    (getBars (loadHistoricalBars c s tf bars nowMs) s tf bars.length).map Candle.close
      = (jsSliceLast bars c.maxBars).map Candle.close ∧
    (0 < c.maxBars →
      (jsSliceLast bars c.maxBars).length = min c.maxBars bars.length ∧
      jsSliceLast bars c.maxBars <:+ bars) := by
  have hstored := loadHistoricalBars_stored c s tf bars nowMs m old hca hmt
  have hget : getBars (loadHistoricalBars c s tf bars nowMs) s tf bars.length
      = jsSliceLast bars c.maxBars := by
    rw [getBars_of_stored _ s tf _ bars.length hstored]
    exact jsSliceLast_idem_length bars c.maxBars
  exact ⟨hstored, hget, by rw [hget],
    fun hpos => ⟨jsSliceLast_length_of_pos bars c.maxBars (by omega),
      jsSliceLast_suffix bars c.maxBars⟩⟩

/-- C9 witness: loading one bar into the fresh cache and reading it back
returns exactly that bar. -/
theorem claim_C9_witness :
    storedBars (loadHistoricalBars (mkOHLCCache 500) "btc" "1m" [newCandle 60000 7] 0)
      "btc" "1m" = some (jsSliceLast [newCandle 60000 7] (mkOHLCCache 500).maxBars) :=
  (claim_C9_roundtrip (mkOHLCCache 500) "btc" "1m" [newCandle 60000 7] 0
    (fun tf => if tf ∈ timeframes then some [] else none) []
    (by simp [mkOHLCCache, symbols]) (by simp [timeframes])).1

/-- C10: every candle in any state reached from the constructor purely by
updateTick ingestion has volume exactly 0: new candles open with volume 0
and in-place updates never touch the volume field, so only
loadHistoricalBars can introduce non-zero volumes. -/
theorem claim_C10_volume_zero (mB : ℕ) (ticks : List (String × ℚ × ℕ)) :
    VolZero (runTicks (mkOHLCCache mB) ticks) :=
  volZero_runTicks ticks (mkOHLCCache mB) (volZero_mk mB)

/-- C10 witness: the invariant holds concretely after the example run. -/
theorem claim_C10_witness :
    VolZero (runTicks (mkOHLCCache 500) [("btc", 100, 1000), ("btc", 105, 61000)]) :=
  claim_C10_volume_zero 500 [("btc", 100, 1000), ("btc", 105, 61000)]

end Mozi
